import Mathlib

/-!
# Verification of the Programmable Matter Simulation core

This file gives a shallow embedding, in Lean 4, of the core algorithms of the
Programmable Matter Simulation (a browser-based multi-agent grid simulation):

* the movement topologies (`topology.js`),
* the A* pathfinder (`astar.js`, the final draft shipped with the simulation,
  supporting both Von Neumann and Moore topologies),
* the BFS pathfinder (`bfs.js`),
* the Minimax pathfinder (`minimax.js`),
* the greedy "Hungarian algorithm" assignment engine (`assignmentAlgorithm.js`),
* the deadlock handler (`deadlockHandler.js`),
* the commit discipline and failure counters of the tick scheduler (`main.js`,
  final draft).

JavaScript numbers are embedded as `ℤ`/`ℕ`; the only non-integer constant in
the code, the diagonal step cost `1.414`, is handled by scaling all path costs
and heuristic values by `500` (so an orthogonal step costs `500` and a diagonal
step costs `707`); this rescaling leaves every comparison performed by the
algorithms unchanged.  Unbounded JS loops are embedded with an explicit fuel
argument large enough that it is never exhausted on the executions the theorems
speak about.
-/

set_option maxHeartbeats 1000000

namespace PMSim

/-! ## Grid cells (`main.js` constants) -/

/-- `const CELL_EMPTY = 0`. -/
def CELL_EMPTY : ℕ := 0
/-- `const CELL_WALL = 1`. -/
def CELL_WALL : ℕ := 1
/-- `const CELL_AGENT = 2`. -/
def CELL_AGENT : ℕ := 2
/-- `const CELL_TARGET = 3`. -/
def CELL_TARGET : ℕ := 3

/-- A grid position `{x, y}`; JS numbers holding integer coordinates. -/
abbrev Pos := ℤ × ℤ

/-- A grid is the row-major array-of-arrays of cell values used everywhere in
the source (`grid[y][x]`). -/
abbrev Grid := List (List ℕ)

/-- `grid.length` — the number of rows. -/
def Grid.rows (g : Grid) : ℕ := g.length

/-- `grid[0].length` — the number of columns. -/
def Grid.cols (g : Grid) : ℕ := (g.headD []).length

/-- `grid[y][x]`: only ever used by the source after an explicit bounds check,
so the default value for out-of-range indices is irrelevant. -/
def Grid.cell (g : Grid) (p : Pos) : ℕ := (g.getD p.2.toNat []).getD p.1.toNat CELL_EMPTY

/-- In-bounds test used (in various spellings) before every grid access:
`x >= 0 && x < cols && y >= 0 && y < rows`. -/
def inBounds (cols rows : ℕ) (p : Pos) : Prop :=
  0 ≤ p.1 ∧ p.1 < (cols : ℤ) ∧ 0 ≤ p.2 ∧ p.2 < (rows : ℤ)

instance (cols rows : ℕ) (p : Pos) : Decidable (inBounds cols rows p) :=
  inferInstanceAs
    (Decidable (0 ≤ p.1 ∧ p.1 < (cols : ℤ) ∧ 0 ≤ p.2 ∧ p.2 < (rows : ℤ)))

/-! ## Topologies (`topology.js`) -/

/-- `TOPOLOGY_VON_NEUMANN` / `TOPOLOGY_MOORE`. -/
inductive Topology where
  | vonNeumann : Topology
  | moore : Topology
deriving DecidableEq, Repr

open Topology

/-- `getDirections(topologyType)` from `topology.js`: Moore gives the 8
compass directions, anything else defaults to the 4 Von Neumann directions,
in the source's order. -/
def getDirections : Topology → List Pos
  | .moore =>
      [(0, -1), (1, -1), (1, 0), (1, 1), (0, 1), (-1, 1), (-1, 0), (-1, -1)]
  | .vonNeumann =>
      [(0, -1), (1, 0), (0, 1), (-1, 0)]

/-- `getNeighbors(x, y, topologyType, gridSize)` from `topology.js`: offset by
each direction, keep the in-bounds results (square grid of side `gridSize`). -/
def getNeighbors (x y : ℤ) (t : Topology) (gridSize : ℕ) : List Pos :=
  ((getDirections t).map (fun d => (x + d.1, y + d.2))).filter
    (fun p => decide (inBounds gridSize gridSize p))

/-- Manhattan distance `|ax - bx| + |ay - by|`, used pervasively. -/
def manhattan (a b : Pos) : ℕ := (a.1 - b.1).natAbs + (a.2 - b.2).natAbs

/-- Chebyshev distance `max(|ax - bx|, |ay - by|)` (A* heuristic for Moore). -/
def chebyshev (a b : Pos) : ℕ := max (a.1 - b.1).natAbs (a.2 - b.2).natAbs

/-! ## The A* pathfinder (final `AStar` class)

Costs are scaled by `500`: the source's orthogonal step cost `1` becomes
`500` and its diagonal step cost `1.414` becomes `707`; `Infinity` becomes
`⊤ : WithTop ℕ`.  The scaling is uniform in every quantity A* compares
(`gScore`, `fScore`, heuristic), so the embedded algorithm performs exactly
the comparisons of the source. -/

/-- Scaled step cost: `(Math.abs(dir.x) + Math.abs(dir.y) === 2) ? 1.414 : 1`. -/
def moveCost (d : Pos) : ℕ := if d.1.natAbs + d.2.natAbs = 2 then 707 else 500

/-- `AStar.heuristic(a, b)` (scaled by 500): Chebyshev distance for Moore,
Manhattan distance for Von Neumann. -/
def AStar.heuristic (t : Topology) (a b : Pos) : ℕ :=
  match t with
  | .moore => 500 * chebyshev a b
  | .vonNeumann => 500 * manhattan a b

/-- The mutable state of `AStar.findPath`'s main loop: the open list with the
per-entry `f` values the JS code stores in its objects, the closed set, and
the `cameFrom` / `gScore` / `fScore` maps. -/
structure AState where
  openL : List (Pos × WithTop ℕ)
  closed : List Pos
  cameFrom : Pos → Option Pos
  g : Pos → WithTop ℕ
  f : Pos → WithTop ℕ

/-- One iteration of the `for (const dir of this.directions)` neighbor loop of
`AStar.findPath`: bounds check, closed/wall check, tentative `g`, insert into
the open list if absent (the source pushes the entry with `f = Infinity` and
overwrites that `f` at the end of the same iteration; the net effect embedded
here), skip if not an improvement, otherwise update `cameFrom`, `gScore`,
`fScore` and the entry's `f`. -/
def astarRelax (gr : Grid) (t : Topology) (cols rows : ℕ) (endP cur : Pos)
    (s : AState) (d : Pos) : AState :=
  let nb : Pos := (cur.1 + d.1, cur.2 + d.2)
  if ¬ inBounds cols rows nb then s
  else if nb ∈ s.closed ∨ gr.cell nb = CELL_WALL then s
  else
    let tentative := s.g cur + (moveCost d : WithTop ℕ)
    let inOpen := s.openL.any (fun e => e.1 = nb)
    if inOpen ∧ s.g nb ≤ tentative then s
    else
      let base := if inOpen then s.openL else s.openL ++ [(nb, ⊤)]
      let fNew := tentative + (AStar.heuristic t nb endP : WithTop ℕ)
      { openL := base.map (fun e => if e.1 = nb then (nb, fNew) else e)
        closed := s.closed
        cameFrom := Function.update s.cameFrom nb (some cur)
        g := Function.update s.g nb tentative
        f := Function.update s.f nb fNew }

/-- The whole neighbor loop: fold `astarRelax` over the direction list. -/
def astarExpand (gr : Grid) (t : Topology) (cols rows : ℕ) (endP cur : Pos)
    (s : AState) : AState :=
  (getDirections t).foldl (astarRelax gr t cols rows endP cur) s

/-- `AStar.reconstructPath(cameFrom, current)`: follow parents, building the
path front-to-back (`unshift`).  The JS `while` loop terminates because the
parent chain strictly decreases `gScore`; the fuel is sized accordingly by
the caller. -/
def reconstructPath (cameFrom : Pos → Option Pos) : ℕ → Pos → List Pos
  | 0, cur => [cur]
  | fuel + 1, cur =>
      match cameFrom cur with
      | none => [cur]
      | some p => reconstructPath cameFrom fuel p ++ [cur]

/-- The `while (openSet.length > 0)` loop of `AStar.findPath`: sort the open
list by `f` ascending (the JS `sort` is stable; ties never matter to the
results proved below), shift the head, return the reconstructed path on
reaching the goal, otherwise close the node and expand its neighbors. -/
def astarLoop (gr : Grid) (t : Topology) (cols rows : ℕ) (endP : Pos)
    (reconFuel : ℕ) : ℕ → AState → List Pos
  | 0, _ => []
  | fuel + 1, s =>
      match s.openL.insertionSort (fun a b => a.2 ≤ b.2) with
      | [] => []
      | (cur, _) :: rest =>
          if cur = endP then reconstructPath s.cameFrom reconFuel endP
          else
            astarLoop gr t cols rows endP reconFuel fuel
              (astarExpand gr t cols rows endP cur
                { openL := rest
                  closed := cur :: s.closed
                  cameFrom := s.cameFrom
                  g := s.g
                  f := s.f })

/-- `AStar.findPath(start, end)`: initialise `gScore`/`fScore` (`Infinity`
everywhere, `0` resp. `h(start)` at the start key), seed the open list with
the start entry, and run the loop.  The fuel `rows * cols + 1` dominates the
loop's iteration count (each iteration permanently closes a distinct
in-bounds cell). -/
def AStar.findPath (gr : Grid) (t : Topology) (start endP : Pos) : List Pos :=
  let rows := gr.rows
  let cols := gr.cols
  let g0 : Pos → WithTop ℕ := fun p => if p = start then 0 else ⊤
  let f0 : Pos → WithTop ℕ :=
    fun p => if p = start then (AStar.heuristic t start endP : WithTop ℕ) else ⊤
  astarLoop gr t cols rows endP (rows * cols + 1) (rows * cols + 1)
    { openL := [(start, f0 start)]
      closed := []
      cameFrom := fun _ => none
      g := g0
      f := f0 }

/-! ## The BFS pathfinder (`bfs.js`)

`createPathfinder` constructs the BFS strategy as `new BFS(gridData,
currentTopology)`, but the `BFS` constructor declares only the `grid`
parameter and hard-codes `this.directions` to the four orthogonal directions,
so the topology argument is dropped at the call boundary. -/

/-- The fields set by the `BFS` constructor. -/
structure BFS where
  grid : Grid
  directions : List Pos

/-- `new BFS(grid, topologyType)`: the constructor signature is
`constructor(grid)`, so the second argument is ignored and the direction list
is always Up, Right, Down, Left. -/
def BFS.construct (grid : Grid) (_topologyType : Topology) : BFS :=
  { grid := grid
    directions := [(0, -1), (1, 0), (0, 1), (-1, 0)] }

/-- The `while (queue.length > 0)` loop of `BFS.findPath`: dequeue, test for
the goal (reconstructing the path through the parent map exactly as A* does),
otherwise enqueue each unvisited, in-bounds, non-wall neighbor.  State is
`(queue, visited, parent)`. -/
def bfsLoop (b : BFS) (cols rows : ℕ) (endP : Pos) (reconFuel : ℕ) :
    ℕ → List Pos → List Pos → (Pos → Option Pos) → List Pos
  | 0, _, _, _ => []
  | fuel + 1, queue, visited, parent =>
      match queue with
      | [] => []
      | cur :: qrest =>
          if cur = endP then reconstructPath parent reconFuel endP
          else
            let acc := b.directions.foldl
              (fun (acc : List Pos × List Pos × (Pos → Option Pos)) d =>
                let nb : Pos := (cur.1 + d.1, cur.2 + d.2)
                if ¬ inBounds cols rows nb then acc
                else if nb ∈ acc.2.1 ∨ b.grid.cell nb = CELL_WALL then acc
                else (acc.1 ++ [nb], nb :: acc.2.1,
                      Function.update acc.2.2 nb (some cur)))
              (qrest, visited, parent)
            bfsLoop b cols rows endP reconFuel fuel acc.1 acc.2.1 acc.2.2

/-- `BFS.findPath(start, end)`: seed the queue and visited set with the start
position and run the loop.  As for A*, the fuel `rows * cols + 1` dominates
the number of iterations (every enqueued position is freshly visited). -/
def BFS.findPath (b : BFS) (start endP : Pos) : List Pos :=
  let rows := b.grid.rows
  let cols := b.grid.cols
  bfsLoop b cols rows endP (rows * cols + 1) (rows * cols + 1)
    [start] [start] (fun _ => none)

/-! ## The assignment engine (`assignmentAlgorithm.js`) -/

/-- `HungarianAlgorithm.createCostMatrix(agents, targets, grid)`: cost is the
A* path length minus one (`new AStar(grid)` defaults to the Von Neumann
topology), or ten times the Manhattan distance when no path exists. -/
def createCostMatrix (agents targets : List Pos) (grid : Grid) : List (List ℤ) :=
  agents.map fun a =>
    targets.map fun t =>
      let path := AStar.findPath grid .vonNeumann a t
      if path.length > 0 then (path.length : ℤ) - 1
      else (manhattan a t : ℤ) * 10

/-- Step 1 of `hungarianAlgorithm`: subtract each row's minimum
(`Math.min(...costs[i])`) from the row. -/
def rowReduce (m : List (List ℤ)) : List (List ℤ) :=
  m.map fun row =>
    match row.min? with
    | none => row
    | some mv => row.map (· - mv)

/-- Step 2 of `hungarianAlgorithm`: for each column, find the minimum over
the rows and subtract it when one exists (`minVal !== Infinity`). -/
def colReduce (m : List (List ℤ)) : List (List ℤ) :=
  let colMin : ℕ → Option ℤ := fun j => (m.filterMap (fun row => row.get? j)).min?
  m.map fun row =>
    row.mapIdx fun j c =>
      match colMin j with
      | none => c
      | some mv => c - mv

/-- The inner scan of `findAssignments`: `for (let j = 0; ...)` keeping the
first strictly smaller uncovered cost; `minVal` starts at `Infinity`
(modelled as `none`) and `minJ` at `-1` (`none`). -/
def findMinUncovered (row : List ℤ) (colCovered : ℕ → Bool) : Option ℕ :=
  (row.enum.foldl
    (fun (acc : Option ℤ × Option ℕ) jc =>
      if ¬ colCovered jc.1 ∧ (acc.1.isNone ∨ acc.1.any (fun mv => jc.2 < mv)) then
        (some jc.2, some jc.1)
      else acc)
    (none, none)).2

/-- One iteration of `findAssignments`'s first loop (`for (let i = 0; i < h;
...)`): pick the cheapest uncovered column for row `i`, record the
assignment, cover the row and the column; leave the state unchanged when
`minJ === -1`.  State: `(assignments, rowCovered, colCovered)`. -/
def pass1Step (costs : List (List ℤ))
    (st : List (ℕ × ℕ) × (ℕ → Bool) × (ℕ → Bool)) (i : ℕ) :
    List (ℕ × ℕ) × (ℕ → Bool) × (ℕ → Bool) :=
  match findMinUncovered (costs.getD i []) st.2.2 with
  | some j =>
      (st.1 ++ [(i, j)], Function.update st.2.1 i true,
       Function.update st.2.2 j true)
  | none => st

/-- The whole first loop of `findAssignments`. -/
def pass1 (costs : List (List ℤ)) (h : ℕ) :
    List (ℕ × ℕ) × (ℕ → Bool) × (ℕ → Bool) :=
  (List.range h).foldl (pass1Step costs) ([], fun _ => false, fun _ => false)

/-- One iteration of `findAssignments`'s clean-up loop: pair a still
uncovered row with the first uncovered column, if any. -/
def pass2Step (rowCovered : ℕ → Bool) (w : ℕ)
    (st : List (ℕ × ℕ) × (ℕ → Bool)) (i : ℕ) : List (ℕ × ℕ) × (ℕ → Bool) :=
  if rowCovered i then st
  else
    match (List.range w).find? (fun j => ¬ st.2 j) with
    | some j => (st.1 ++ [(i, j)], Function.update st.2 j true)
    | none => st

/-- `HungarianAlgorithm.findAssignments(costs, h, w)`: a greedy pass over the
rows picking the cheapest uncovered column for each, followed by a clean-up
pass pairing any still-uncovered row with the first uncovered column. -/
def findAssignments (costs : List (List ℤ)) (h w : ℕ) : List (ℕ × ℕ) :=
  let p1 := pass1 costs h
  ((List.range h).foldl (pass2Step p1.2.1 w) (p1.1, p1.2.2)).1

/-- `HungarianAlgorithm.hungarianAlgorithm(costMatrix)`. -/
def hungarianAlgorithm (costMatrix : List (List ℤ)) : List (ℕ × ℕ) :=
  match costMatrix with
  | [] => []
  | _ =>
      let h := costMatrix.length
      let w := (costMatrix.headD []).length
      findAssignments (colReduce (rowReduce costMatrix)) h w

/-- `HungarianAlgorithm.findOptimalAssignment(agents, targets, grid)`, as a
list of `(agent index, target index)` pairs. -/
def findOptimalAssignment (agents targets : List Pos) (grid : Grid) :
    List (ℕ × ℕ) :=
  hungarianAlgorithm (createCostMatrix agents targets grid)

/-! ## Agents -/

/-- The fields of the agent objects created by `main.js` that the algorithms
below read or write.  `visibilityRange` is `3` in distributed mode and
`Infinity` (`⊤`) in centralized mode at creation, and is only ever increased
(temporarily) afterwards. -/
structure Agent where
  id : ℕ
  pos : Pos
  target : Pos
  path : List Pos
  isRetreating : Bool := false
  needsToReturnToTarget : Bool := false
  visibilityRange : WithTop ℕ := ⊤
deriving DecidableEq

/-! ## The deadlock handler (`deadlockHandler.js`)

The handler aliases the simulation's agent array (`this.agents`), so its
state is modelled as the pair of the handler's own fields and the agent
list. -/

/-- The constructor fields of `DeadlockHandler` that evolve:
`deadlockCount`, `waitingTime` and `previousPositions` (both JS `Map`s,
modelled as partial functions from agent id). -/
structure DeadlockHandler where
  deadlockCount : ℕ
  waitingTime : ℕ → Option ℕ
  previousPositions : ℕ → Option Pos

/-- `new DeadlockHandler(grid, agents)`: zero count, empty maps. -/
def DeadlockHandler.init : DeadlockHandler :=
  { deadlockCount := 0, waitingTime := fun _ => none, previousPositions := fun _ => none }

/-- `DeadlockHandler.updatePositionTracking()`: per agent, bump the waiting
time when the position key equals the stored previous one, else reset it to
`0`; then store the current position. -/
def DeadlockHandler.updatePositionTracking (dh : DeadlockHandler)
    (agents : List Agent) : DeadlockHandler :=
  agents.foldl
    (fun dh a =>
      let w :=
        if dh.previousPositions a.id = some a.pos then (dh.waitingTime a.id).getD 0 + 1
        else 0
      { dh with
        waitingTime := Function.update dh.waitingTime a.id (some w)
        previousPositions := Function.update dh.previousPositions a.id (some a.pos) })
    dh

/-- Write one cell of the grid (the `modifiedGrid[y][x] = v` updates). -/
def Grid.setCell (g : Grid) (p : Pos) (v : ℕ) : Grid :=
  g.set p.2.toNat ((g.getD p.2.toNat []).set p.1.toNat v)

/-- `DeadlockHandler.createModifiedGrid()`: copy the grid, then for every
agent write `1` at its position (and, redundantly, write `1` again when the
agent sits on its target).  Note that `1` is `CELL_WALL`, the value `AStar`
treats as impassable — despite the function's own comments promising "small
penalties (not walls)". -/
def DeadlockHandler.createModifiedGrid (grid : Grid) (agents : List Agent) : Grid :=
  agents.foldl
    (fun g a =>
      let g1 := g.setCell a.pos 1
      if a.pos = a.target then g1.setCell a.pos 1 else g1)
    grid

/-- `DeadlockHandler.findAlternativePath(agent)`: re-plan with `new
AStar(modifiedGrid)` (Von Neumann by default) on the modified grid; install
the path and report success when it has more than one node.  Returns the
updated agent, or `none` when the source returns `false`. -/
def DeadlockHandler.findAlternativePath (grid : Grid) (agents : List Agent)
    (a : Agent) : Option Agent :=
  let modifiedGrid := DeadlockHandler.createModifiedGrid grid agents
  let newPath := AStar.findPath modifiedGrid .vonNeumann a.pos a.target
  if newPath.length > 1 then some { a with path := newPath } else none

/-- `DeadlockHandler.temporaryRetreat(agent)`: collect the in-bounds,
non-wall, unoccupied orthogonal neighbors with their Manhattan distance to
the target, sort ascending by that distance (JS stable sort), and retreat to
the best one via a two-step path, marking the agent as retreating. -/
def DeadlockHandler.temporaryRetreat (grid : Grid) (agents : List Agent)
    (a : Agent) : Option Agent :=
  let rows := grid.rows
  let cols := grid.cols
  let directions : List Pos := [(0, -1), (1, 0), (0, 1), (-1, 0)]
  let retreatOptions :=
    directions.filterMap fun d =>
      let n : Pos := (a.pos.1 + d.1, a.pos.2 + d.2)
      if inBounds cols rows n ∧ grid.cell n ≠ 1 ∧
          ¬ agents.any (fun b => b.id ≠ a.id ∧ b.pos = n) then
        some (n, manhattan n a.target)
      else none
  match retreatOptions.insertionSort (fun o1 o2 => o1.2 ≤ o2.2) with
  | [] => none
  | best :: _ =>
      some { a with path := [a.pos, best.1], isRetreating := true }

/-- `DeadlockHandler.createClearedPathForAgent(agent)`: keep only the walls,
plan with A* (Von Neumann default) ignoring all agents, and install the path
when it has more than one node. -/
def DeadlockHandler.createClearedPathForAgent (grid : Grid) (a : Agent) :
    Option Agent :=
  let clearedGrid : Grid := grid.map fun row => row.map fun c => if c = 1 then 1 else 0
  let path := AStar.findPath clearedGrid .vonNeumann a.pos a.target
  if path.length > 1 then some { a with path := path } else none

/-- JS `Array.prototype.sort()` without a comparator sorts by the decimal
string representations (`deadlockedAgentIds.sort()`). -/
def jsSortIds (ids : List ℕ) : List ℕ :=
  ids.insertionSort (fun a b => ¬ Nat.repr b < Nat.repr a)

/-- The escalation ladder applied to one deadlocked agent inside
`resolveDeadlocks`: alternative path, else temporary retreat, else cleared
path (which may itself fail, leaving the agent unchanged). -/
def DeadlockHandler.resolveOne (grid : Grid) (agents : List Agent)
    (agentId : ℕ) : List Agent :=
  match agents.find? (fun a => a.id = agentId) with
  | none => agents
  | some a =>
      let resolved :=
        match DeadlockHandler.findAlternativePath grid agents a with
        | some a' => a'
        | none =>
            match DeadlockHandler.temporaryRetreat grid agents a with
            | some a' => a'
            | none =>
                match DeadlockHandler.createClearedPathForAgent grid a with
                | some a' => a'
                | none => a
      agents.map fun b => if b.id = agentId then resolved else b

/-- `DeadlockHandler.resolveDeadlocks(deadlockedAgentIds)`: return unchanged
on an empty list; otherwise increment `deadlockCount` once, sort the ids
(JS default string sort) and run the per-agent ladder over the shared agent
array. -/
def DeadlockHandler.resolveDeadlocks (grid : Grid)
    (s : DeadlockHandler × List Agent) (ids : List ℕ) :
    DeadlockHandler × List Agent :=
  if ids = [] then s
  else
    ({ s.1 with deadlockCount := s.1.deadlockCount + 1 },
     (jsSortIds ids).foldl (fun ags i => DeadlockHandler.resolveOne grid ags i) s.2)

/-- The state-changing operations a caller can perform on a
`DeadlockHandler` (detection and `getDeadlockCount` are pure). -/
inductive DHOp where
  | updateTracking : DHOp
  | resolve (grid : Grid) (ids : List ℕ) : DHOp

/-- Apply one operation to the handler-and-agents state. -/
def DHOp.apply (s : DeadlockHandler × List Agent) : DHOp → DeadlockHandler × List Agent
  | .updateTracking => (s.1.updatePositionTracking s.2, s.2)
  | .resolve grid ids => DeadlockHandler.resolveDeadlocks grid s ids

/-- Apply a sequence of operations. -/
def DHOp.applyAll (s : DeadlockHandler × List Agent) (ops : List DHOp) :
    DeadlockHandler × List Agent :=
  ops.foldl DHOp.apply s

/-! ## The failed-resolution counter of `simulationStep` (`main.js`)

The relevant fragment of `simulationStep` runs after the movement loop:
`if (!agentsMoved) { failedDeadlockResolutionAttempts++; ...; if
(failedDeadlockResolutionAttempts >= 5) { pauseSimulation();
failedDeadlockResolutionAttempts = 0; setTimeout(() => {
sequentialMovementMode = true; ...; startSimulation(); }, 500); return; } }`.
In distributed + sequential mode the visibility-increase branch returns
before the `>= 5` check.  Nothing in `simulationStep` resets the counter when
agents do move; it is only reset by `startSimulation`. -/

/-- Outcome of the counter bookkeeping of one `simulationStep` call. -/
structure FailureStepResult where
  counter : ℕ
  restartScheduled : Bool
  sequentialForced : Bool
deriving DecidableEq

/-- The counter update performed by one `simulationStep` call, given whether
any agent moved and whether the distributed + sequential early-return branch
is active. -/
def simulationStepFailureUpdate (distributedSequential : Bool)
    (agentsMoved : Bool) (counter : ℕ) : FailureStepResult :=
  if agentsMoved then ⟨counter, false, false⟩
  else
    let c := counter + 1
    if distributedSequential then ⟨c, false, false⟩
    else if 5 ≤ c then ⟨0, true, true⟩
    else ⟨c, false, false⟩

/-- Run the counter bookkeeping over a sequence of tick outcomes (`true` =
some agent moved that tick), latching whether a restart was ever scheduled.
A scheduled restart re-enters through `startSimulation`, which resets the
counter — matching the `0` the update already wrote. -/
def runFailureTicks (distributedSequential : Bool) :
    ℕ → List Bool → ℕ × Bool
  | c, [] => (c, false)
  | c, m :: ms =>
      let r := simulationStepFailureUpdate distributedSequential m c
      let rest := runFailureTicks distributedSequential r.counter ms
      (rest.1, r.restartScheduled || rest.2)

/-! ## `startSimulation` (`main.js`) -/

/-- The slice of the global simulation state read and written by
`startSimulation` and `assignTargets`. -/
structure SimConfig where
  isSimulationRunning : Bool
  agents : List Agent
  targetPositions : List Pos
  grid : Grid

/-- What a call to `startSimulation` decided: whether the simulation is
running afterwards, whether this call installed the tick interval
(`setInterval(simulationStep, simulationSpeed)`), and the assignment applied
by `assignTargets` (`none` when it bailed out, including the
insufficient-goals warning path). -/
structure StartResult where
  running : Bool
  tickingStarted : Bool
  assignments : Option (List (ℕ × ℕ))

/-- `assignTargets()`: warn and return without assigning when
`targetPositions.length < agents.length`; otherwise run the assignment
engine and write each assigned target into the corresponding agent.  (The
subsequent per-agent `calculatePath` call only fills in `path`; the paths
are modelled separately by the tick relation below.) -/
def assignTargets (agents : List Pos → List Pos → Grid → List (ℕ × ℕ))
    (s : SimConfig) : SimConfig × Option (List (ℕ × ℕ)) :=
  if s.targetPositions.length < s.agents.length then (s, none)
  else
    let agentPositions := s.agents.map (·.pos)
    let asg := agents agentPositions s.targetPositions s.grid
    let agents' := asg.foldl
      (fun ags p =>
        match ags.get? p.1, s.targetPositions.get? p.2 with
        | some a, some t => ags.set p.1 { a with target := t }
        | _, _ => ags)
      s.agents
    ({ s with agents := agents' }, some asg)

/-- `startSimulation()`: do nothing when already running; refuse (log an
error, leave the simulation stopped) when there are no agents or no targets;
otherwise reset the failure counters, mark the simulation running, run
`assignTargets` and install the tick interval. -/
def startSimulation (s : SimConfig) : SimConfig × StartResult :=
  if s.isSimulationRunning then (s, ⟨true, false, none⟩)
  else if s.agents.length = 0 then (s, ⟨false, false, none⟩)
  else if s.targetPositions.length = 0 then (s, ⟨false, false, none⟩)
  else
    let s1 := { s with isSimulationRunning := true }
    let (s2, asg) := assignTargets findOptimalAssignment s1
    (s2, ⟨true, true, asg⟩)

/-! ## The Minimax pathfinder (`minimax.js`)

JS numbers here are integers extended with `±Infinity`, embedded as
`WithBot (WithTop ℤ)`. -/

/-- A JS number as used by the Minimax value computations: an integer, or
`±Infinity`. -/
abbrev JNum := WithBot (WithTop ℤ)

/-- Embed an integer value. -/
def JNum.ofInt (z : ℤ) : JNum := ((z : WithTop ℤ) : JNum)

/-- The constructor fields of `Minimax`: the grid snapshot and the topology
(`maxDepth` is the constant `5`, `CELL_WALL` the constant `1`). -/
structure Minimax where
  grid : Grid
  topology : Topology

/-- `Minimax.isWall(x, y)`: out-of-bounds positions count as walls. -/
def Minimax.isWall (m : Minimax) (p : Pos) : Bool :=
  if p.1 < 0 ∨ (m.grid.cols : ℤ) ≤ p.1 ∨ p.2 < 0 ∨ (m.grid.rows : ℤ) ≤ p.2 then true
  else m.grid.cell p == 1

/-- `Minimax.getNeighbors(node)`: topology neighbors within the square grid
of side `grid.length`, with walls filtered out. -/
def Minimax.neighborsOf (m : Minimax) (p : Pos) : List Pos :=
  (getNeighbors p.1 p.2 m.topology m.grid.rows).filter (fun n => ¬ m.isWall n)

/-- `Minimax.evaluate(state)`: `1000` at the goal, else `100 -` Manhattan
distance to the goal. -/
def Minimax.evaluate (goal p : Pos) : JNum :=
  if p = goal then JNum.ofInt 1000
  else JNum.ofInt (100 - (manhattan p goal : ℤ))

mutual

/-- `Minimax.maxValue(state, depth, alpha, beta)`.  The visited set is passed
extended for the recursive call and unchanged afterwards, exactly matching
the source's `add`/`delete` pair around each call; `this.cameFrom` is
threaded through.  Note the source updates `alpha = Math.max(alpha, value)`
*before* testing `value > alpha`, so the `cameFrom` write in this function is
unreachable, but it is embedded as written. -/
def Minimax.maxValue (m : Minimax) (goal : Pos) :
    ℕ → Pos → List Pos → JNum → JNum → (Pos → Option Pos) →
    JNum × (Pos → Option Pos)
  | 0, state, _, _, _, cf => (Minimax.evaluate goal state, cf)
  | depth + 1, state, visited, alpha, beta, cf =>
      if state = goal then (Minimax.evaluate goal state, cf)
      else
        let r := (m.neighborsOf state).foldl
          (fun (st : JNum × JNum × (Pos → Option Pos) × Bool) move =>
            if st.2.2.2 then st
            else if move ∈ visited then st
            else
              let rec1 := Minimax.minValue m goal depth move (move :: visited)
                st.2.1 beta st.2.2.1
              let value := max st.1 rec1.1
              if beta ≤ value then (value, st.2.1, rec1.2, true)
              else
                let alpha' := max st.2.1 value
                let cf2 :=
                  if alpha' < value then Function.update rec1.2 state (some move)
                  else rec1.2
                (value, alpha', cf2, false))
          ((⊥ : JNum), alpha, cf, false)
        (r.1, r.2.2.1)

/-- `Minimax.minValue(state, depth, alpha, beta)`. -/
def Minimax.minValue (m : Minimax) (goal : Pos) :
    ℕ → Pos → List Pos → JNum → JNum → (Pos → Option Pos) →
    JNum × (Pos → Option Pos)
  | 0, state, _, _, _, cf => (Minimax.evaluate goal state, cf)
  | depth + 1, state, visited, alpha, beta, cf =>
      if state = goal then (Minimax.evaluate goal state, cf)
      else
        let r := (m.neighborsOf state).foldl
          (fun (st : JNum × JNum × (Pos → Option Pos) × Bool) move =>
            if st.2.2.2 then st
            else if move ∈ visited then st
            else
              let rec1 := Minimax.maxValue m goal depth move (move :: visited)
                alpha st.2.1 st.2.2.1
              let value := min st.1 rec1.1
              if value ≤ alpha then (value, st.2.1, rec1.2, true)
              else (value, min st.2.1 value, rec1.2, false))
          ((((⊤ : WithTop ℤ) : JNum)), beta, cf, false)
        (r.1, r.2.2.1)

end

/-- `Minimax.minimaxDecision(state, depth)`: evaluate each unvisited move
with `minValue`, tracking the best value, the best move and the `cameFrom`
entry for the start state. -/
def Minimax.minimaxDecision (m : Minimax) (goal : Pos) (depth : ℕ)
    (state : Pos) : Option Pos × (Pos → Option Pos) :=
  let r := (m.neighborsOf state).foldl
    (fun (st : JNum × Option Pos × (Pos → Option Pos)) move =>
      if move ∈ ([] : List Pos) then st
      else
        let rec1 := Minimax.minValue m goal (depth - 1) move [move]
          (⊥ : JNum) (((⊤ : WithTop ℤ) : JNum)) st.2.2
        if st.1 < rec1.1 then
          (rec1.1, some move, Function.update rec1.2 state (some move))
        else (st.1, st.2.1, rec1.2))
    ((⊥ : JNum), none, fun _ => none)
  (r.2.1, r.2.2)

/-- The `while` loop of `Minimax.findPath` reconstructing a path from the
`cameFrom` map, with the source's own `path.length > 1000` safety break; the
fuel (sized by the caller above that bound) is never the binding limit. -/
def minimaxWalk (cf : Pos → Option Pos) (goal : Pos) :
    ℕ → Pos → List Pos → List Pos
  | 0, _, path => path
  | fuel + 1, cur, path =>
      if cur = goal then path
      else
        match cf cur with
        | none => path
        | some nxt =>
            let path' := path ++ [nxt]
            if 1000 < path'.length then path'
            else if nxt = goal then path'
            else minimaxWalk cf goal fuel nxt path'

/-- `Minimax.findPath(start, goal)`.  The second early return embeds the
source's comparison exactly: `if (start.x === goal.x && start.y === start.y)`
— the right-hand side of the second conjunct compares `start.y` with itself,
so the branch fires whenever the x-coordinates agree. -/
def Minimax.findPath (m : Minimax) (start goal : Pos) : List Pos :=
  if m.isWall start ∨ m.isWall goal then []
  else if start.1 = goal.1 ∧ start.2 = start.2 then [start]
  else
    let d := Minimax.minimaxDecision m goal 5 start
    match d.1 with
    | none => [start]
    | some _ =>
        let path := minimaxWalk d.2 goal 1002 start [start]
        match path.getLast? with
        | some lastP =>
            if lastP = goal then path
            else
              let restOfPath := AStar.findPath m.grid m.topology lastP goal
              if restOfPath.length > 1 then path ++ restOfPath.drop 1 else path
        | none => path

/-! ## The tick scheduler's movement commits (`simulationStep`, `main.js`)

`simulationStep` interleaves the movement commits with UI work, logging,
path recomputation (`calculatePath`), target reassignment and deadlock
resolution.  Positions are only ever written at four commit sites:

* the main movement loop (one step along `agent.path` when the next cell
  passes the per-decision-mode occupancy check);
* `moveAgentTemporarilyForced` (displace a goal-sitting agent to an
  adjacent free non-wall cell);
* `tryAgentSwapping` (exchange the positions of two Manhattan-adjacent
  stuck agents when that lowers the total remaining distance);
* `tryRandomMoves` (move a stuck agent to a free non-wall topology
  neighbor).

All other work either rewrites paths/targets/flags (always installing paths
produced by a pathfinder or an explicit adjacent pair, hence wellformed) or
touches no agent at all.  The tick is therefore embedded as a step relation:
the four commits carry exactly the source's guards, and everything else is
abstracted by `PlanUpdate`, which fixes every agent's identity and position
and may replace plans by arbitrary wellformed ones.  The relation
over-approximates the source's behaviours (it allows every choice the code
can make, and more), which is the sound direction for the invariants proved
about it.  Escalation commits run only in ticks whose movement loop moved
nobody, and each such tick commits at most one escalation tactic, exactly as
in the source (every tactic returns from `simulationStep` on success). -/

/-- `DECISION_CENTRALIZED` / `DECISION_DISTRIBUTED`. -/
inductive DecisionMode where
  | centralized : DecisionMode
  | distributed : DecisionMode
deriving DecidableEq

/-- The configuration a tick runs under. -/
structure TickEnv where
  topology : Topology
  decisionMode : DecisionMode
  gridSize : ℕ
  grid : Grid

/-- One admissible step of the active topology (used for path wellformedness
and for the one-cell-per-tick claim). -/
def StepOK (t : Topology) (gridSize : ℕ) (u v : Pos) : Prop :=
  v ∈ getNeighbors u.1 u.2 t gridSize

instance (t : Topology) (n : ℕ) (u v : Pos) : Decidable (StepOK t n u v) :=
  inferInstanceAs (Decidable (v ∈ getNeighbors u.1 u.2 t n))

/-- A wellformed plan: empty, or anchored at the agent's position with
topology-adjacent consecutive cells.  Every path the source installs has
this shape (pathfinder outputs, two-cell retreat/return paths, suffixes of
such paths after a committed step). -/
def WFPath (t : Topology) (gridSize : ℕ) (pos : Pos) (p : List Pos) : Prop :=
  p = [] ∨ (p.head? = some pos ∧ p.Chain' (StepOK t gridSize))

def chainB {α : Type} (r : α → α → Prop) [DecidableRel r] : List α → Bool
  | [] => true
  | [_] => true
  | a :: b :: l => decide (r a b) && chainB r (b :: l)

theorem chainB_iff {α : Type} (r : α → α → Prop) [DecidableRel r] :
    ∀ l : List α, chainB r l = true ↔ l.Chain' r
  | [] => by simp [chainB]
  | [a] => by simp [chainB]
  | a :: b :: l => by
      rw [List.chain'_cons, ← chainB_iff r (b :: l)]
      simp [chainB]

instance (priority := 1100) instDecChain {α : Type} (r : α → α → Prop)
    [DecidableRel r] (l : List α) : Decidable (l.Chain' r) :=
  decidable_of_iff _ (chainB_iff r l)

instance (t : Topology) (n : ℕ) (pos : Pos) (p : List Pos) :
    Decidable (WFPath t n pos p) :=
  inferInstanceAs
    (Decidable (p = [] ∨ (p.head? = some pos ∧ p.Chain' (StepOK t n))))

/-- The state facts the simulation maintains and the tick theorems assume:
distinct agent ids (ids are assigned by an increasing counter), wellformed
plans, visibility ranges of at least `3` (created as `3` or `Infinity` and
only ever increased), and in-bounds positions. -/
def GoodState (env : TickEnv) (s : List Agent) : Prop :=
  (s.map (·.id)).Nodup ∧
    ∀ a ∈ s, WFPath env.topology env.gridSize a.pos a.path ∧
      (3 : WithTop ℕ) ≤ a.visibilityRange ∧
      inBounds env.gridSize env.gridSize a.pos

instance (env : TickEnv) (s : List Agent) : Decidable (GoodState env s) :=
  inferInstanceAs (Decidable ((s.map (fun a : Agent => a.id)).Nodup ∧
    ∀ a ∈ s, WFPath env.topology env.gridSize a.pos a.path ∧
      (3 : WithTop ℕ) ≤ a.visibilityRange ∧
      inBounds env.gridSize env.gridSize a.pos))

/-- The movement loop's occupancy check before committing `nextStep`:
in centralized mode any other agent on the cell blocks; in distributed mode
only other agents within the mover's visibility range
(`|ax-bx| + |ay-by| <= agent.visibilityRange`) block. -/
def moveAllowed (env : TickEnv) (s : List Agent) (a : Agent) (next : Pos) : Prop :=
  match env.decisionMode with
  | .centralized => ∀ b ∈ s, b.id ≠ a.id → b.pos ≠ next
  | .distributed => ∀ b ∈ s, b.id ≠ a.id → b.pos = next →
      ¬ (((manhattan a.pos b.pos : ℕ) : WithTop ℕ) ≤ a.visibilityRange)

/-- The main loop's commit for the agent at index `i`: it is not at its
target, `nextStep = agent.path[1]`, the occupancy check passes; the agent
moves to `nextStep`, its path is shifted, and collapsed to the single-cell
path when the target is reached. -/
inductive MoveCommit (env : TickEnv) (i : ℕ) : List Agent → List Agent → Prop
  | mk (s : List Agent) (a : Agent) (next : Pos)
      (ha : s.get? i = some a)
      (hnotAtTarget : a.pos ≠ a.target)
      (hnext : a.path.get? 1 = some next)
      (hocc : moveAllowed env s a next) :
      MoveCommit env i s
        (s.set i
          { a with
            pos := next
            path := if next = a.target then [next] else a.path.drop 1 })

/-- `moveAgentTemporarilyForced(agent)` (final draft): the agent sits on its
target; it is moved to an in-bounds, non-wall topology neighbor no other
agent occupies, with the two-cell return path installed.  (The source picks
the farthest such neighbor from the target; the relation admits any of
them.) -/
inductive ForcedCommit (env : TickEnv) (i : ℕ) : List Agent → List Agent → Prop
  | mk (s : List Agent) (a : Agent) (tempPos : Pos)
      (ha : s.get? i = some a)
      (hAtTarget : a.pos = a.target)
      (hnb : tempPos ∈ getNeighbors a.pos.1 a.pos.2 env.topology env.gridSize)
      (hwall : env.grid.cell tempPos ≠ CELL_WALL)
      (hocc : ∀ b ∈ s, b.id ≠ a.id → b.pos ≠ tempPos) :
      ForcedCommit env i s
        (s.set i
          { a with
            pos := tempPos
            needsToReturnToTarget := true
            path := [tempPos, a.target] })

/-- `tryAgentSwapping(stuckAgents)`: two distinct Manhattan-adjacent agents
exchange positions when the swap strictly lowers the summed Manhattan
distances to their targets. -/
inductive SwapCommit (env : TickEnv) (i j : ℕ) : List Agent → List Agent → Prop
  | mk (s : List Agent) (a b : Agent)
      (ha : s.get? i = some a)
      (hb : s.get? j = some b)
      (hij : i ≠ j)
      (hadj : manhattan a.pos b.pos = 1)
      (himpr : manhattan b.pos a.target + manhattan a.pos b.target <
        manhattan a.pos a.target + manhattan b.pos b.target) :
      SwapCommit env i j s
        ((s.set i { a with pos := b.pos }).set j { b with pos := a.pos })

/-- `tryRandomMoves(stuckAgents)`: a stuck (off-target) agent moves to an
in-bounds, non-wall topology neighbor no other agent occupies; its path is
cleared for recalculation. -/
inductive RandomCommit (env : TickEnv) (i : ℕ) : List Agent → List Agent → Prop
  | mk (s : List Agent) (a : Agent) (n : Pos)
      (ha : s.get? i = some a)
      (hnotAtTarget : a.pos ≠ a.target)
      (hnb : n ∈ getNeighbors a.pos.1 a.pos.2 env.topology env.gridSize)
      (hwall : env.grid.cell n ≠ CELL_WALL)
      (hocc : ∀ b ∈ s, b.id ≠ a.id → b.pos ≠ n) :
      RandomCommit env i s (s.set i { a with pos := n, path := [] })

/-- Every non-movement mutation `simulationStep` performs (path
recomputation, target reassignment, flag and visibility bookkeeping,
deadlock-handler plan rewrites): agent count, ids and positions are
untouched, plans stay wellformed, visibility stays at least `3`. -/
def PlanUpdate (env : TickEnv) (s s' : List Agent) : Prop :=
  s.length = s'.length ∧
    (∀ k, (s.get? k).map (·.pos) = (s'.get? k).map (·.pos) ∧
      (s.get? k).map (·.id) = (s'.get? k).map (·.id)) ∧
    ∀ a ∈ s', WFPath env.topology env.gridSize a.pos a.path ∧
      (3 : WithTop ℕ) ≤ a.visibilityRange

/-- The movement loop (`for (const agent of prioritizedAgents)`), processing
each index of the priority order once; the boolean records whether anyone
moved (`agentsMoved`). -/
inductive MainPass (env : TickEnv) : List ℕ → Bool → List Agent → List Agent → Prop
  | nil (s : List Agent) : MainPass env [] false s s
  | skip (i : ℕ) (is : List ℕ) (m : Bool) (s s₁ s₂ : List Agent)
      (hplan : PlanUpdate env s s₁)
      (hrest : MainPass env is m s₁ s₂) :
      MainPass env (i :: is) m s s₂
  | move (i : ℕ) (is : List ℕ) (m : Bool) (s s₁ s₂ s₃ s₄ : List Agent)
      (hplan : PlanUpdate env s s₁)
      (hmove : MoveCommit env i s₁ s₂)
      (hpost : PlanUpdate env s₂ s₃)
      (hrest : MainPass env is m s₃ s₄) :
      MainPass env (i :: is) true s s₄

/-- The at-most-one escalation commit of a no-movement tick. -/
inductive EscalationMove (env : TickEnv) : List Agent → List Agent → Prop
  | none_ (s : List Agent) : EscalationMove env s s
  | forced (i : ℕ) (s s' : List Agent) (h : ForcedCommit env i s s') :
      EscalationMove env s s'
  | swap (i j : ℕ) (s s' : List Agent) (h : SwapCommit env i j s s') :
      EscalationMove env s s'
  | random (i : ℕ) (s s' : List Agent) (h : RandomCommit env i s s') :
      EscalationMove env s s'

/-- One committed call of `simulationStep`: a movement pass over a
duplicate-free priority order; when it moved nobody, plan rewrites around at
most one escalation commit. -/
inductive Tick (env : TickEnv) : List Agent → List Agent → Prop
  | moved (order : List ℕ) (s s₁ : List Agent)
      (hnd : order.Nodup)
      (hpass : MainPass env order true s s₁) :
      Tick env s s₁
  | stalled (order : List ℕ) (s s₁ s₂ s₃ s₄ : List Agent)
      (hnd : order.Nodup)
      (hpass : MainPass env order false s s₁)
      (hpre : PlanUpdate env s₁ s₂)
      (hesc : EscalationMove env s₂ s₃)
      (hpost : PlanUpdate env s₃ s₄) :
      Tick env s s₄

/-! ## Specification vocabulary for A* correctness

`AStar.findPath` explores edges `u → u + d` for `d` in the active direction
list, keeping targets that are in-bounds and not walls.  A path is a
nonempty list of positions chained by such edges; its cost is the sum of the
(scaled) step costs. -/

/-- The cost of the step from `u` to `v` (`moveCost` of the offset). -/
def stepCost (u v : Pos) : ℕ := moveCost (v.1 - u.1, v.2 - u.2)

/-- One admissible A* edge: the offset is an active direction and the target
is in-bounds and not a wall (the source never constrains the *source* cell
of a step). -/
def AdmissibleStep (gr : Grid) (t : Topology) (u v : Pos) : Prop :=
  (v.1 - u.1, v.2 - u.2) ∈ getDirections t ∧
    inBounds gr.cols gr.rows v ∧ gr.cell v ≠ CELL_WALL

/-- `p` is a path from `start` to `goal` on the grid: nonempty, anchored at
both ends, every consecutive pair an admissible edge. -/
def IsPath (gr : Grid) (t : Topology) (start goal : Pos) (p : List Pos) : Prop :=
  p.head? = some start ∧ p.getLast? = some goal ∧ p.Chain' (AdmissibleStep gr t)

/-- Total (scaled) cost of a path. -/
def pathCost : List Pos → ℕ
  | [] => 0
  | [_] => 0
  | u :: v :: rest => stepCost u v + pathCost (v :: rest)

/-- `d` is the exact least path cost from `start` to `u` (`⊤` never occurs
in the places this is used). -/
def IsMinDist (gr : Grid) (t : Topology) (start u : Pos) (d : WithTop ℕ) : Prop :=
  (∃ p, IsPath gr t start u p ∧ ((pathCost p : ℕ) : WithTop ℕ) = d) ∧
    ∀ q, IsPath gr t start u q → d ≤ ((pathCost q : ℕ) : WithTop ℕ)

/-- The loop invariant of `AStar.findPath`, stated over the embedded loop
state.  `hh` abbreviates the heuristic against the fixed goal. -/
structure AInv (gr : Grid) (t : Topology) (start goal : Pos) (s : AState) : Prop where
  open_nodup : (s.openL.map Prod.fst).Nodup
  open_closed : ∀ p ∈ s.openL.map Prod.fst, p ∉ s.closed
  closed_nodup : s.closed.Nodup
  closed_inb : ∀ p ∈ s.closed, inBounds gr.cols gr.rows p
  goal_not_closed : goal ∉ s.closed
  start_case : (s.closed = [] ∧ s.openL = [(start, s.f start)]) ∨ start ∈ s.closed
  g_start : s.g start = 0
  cf_start : s.cameFrom start = none
  open_inb : ∀ p ∈ s.openL.map Prod.fst, inBounds gr.cols gr.rows p
  open_g_fin : ∀ p ∈ s.openL.map Prod.fst, s.g p ≠ ⊤
  open_entry_f : ∀ e ∈ s.openL, e.2 = s.f e.1 ∧
    s.f e.1 = s.g e.1 + ((AStar.heuristic t e.1 goal : ℕ) : WithTop ℕ)
  cf_sound : ∀ u v, s.cameFrom u = some v →
    AdmissibleStep gr t v u ∧ v ∈ s.closed ∧
      s.g u = s.g v + ((stepCost v u : ℕ) : WithTop ℕ)
  cf_g : ∀ u, s.g u ≠ ⊤ → u = start ∨ (s.cameFrom u).isSome
  settled : ∀ p ∈ s.closed, IsMinDist gr t start p (s.g p)
  frontier : ∀ p ∈ s.closed, ∀ q, AdmissibleStep gr t p q → q ∉ s.closed →
    q ∈ s.openL.map Prod.fst ∧
      s.g q ≤ s.g p + ((stepCost p q : ℕ) : WithTop ℕ)

/-- The mid-expansion invariant: after the node `cur` has been moved to the
closed set but while its direction list is still being folded, `frontier`
holds for all closed nodes except that `cur`'s own edges are only guaranteed
along the already-processed directions `done`. -/
structure AMid (gr : Grid) (t : Topology) (start goal cur : Pos) (done : List Pos)
    (s : AState) : Prop where
  open_nodup : (s.openL.map Prod.fst).Nodup
  open_closed : ∀ p ∈ s.openL.map Prod.fst, p ∉ s.closed
  closed_nodup : s.closed.Nodup
  closed_inb : ∀ p ∈ s.closed, inBounds gr.cols gr.rows p
  goal_not_closed : goal ∉ s.closed
  cur_closed : cur ∈ s.closed
  start_closed : start ∈ s.closed
  g_start : s.g start = 0
  cf_start : s.cameFrom start = none
  open_inb : ∀ p ∈ s.openL.map Prod.fst, inBounds gr.cols gr.rows p
  open_g_fin : ∀ p ∈ s.openL.map Prod.fst, s.g p ≠ ⊤
  open_entry_f : ∀ e ∈ s.openL, e.2 = s.f e.1 ∧
    s.f e.1 = s.g e.1 + ((AStar.heuristic t e.1 goal : ℕ) : WithTop ℕ)
  cf_sound : ∀ u v, s.cameFrom u = some v →
    AdmissibleStep gr t v u ∧ v ∈ s.closed ∧
      s.g u = s.g v + ((stepCost v u : ℕ) : WithTop ℕ)
  cf_g : ∀ u, s.g u ≠ ⊤ → u = start ∨ (s.cameFrom u).isSome
  settled : ∀ p ∈ s.closed, IsMinDist gr t start p (s.g p)
  frontier : ∀ p ∈ s.closed, ∀ q, AdmissibleStep gr t p q → q ∉ s.closed →
    (p ≠ cur ∨ (q.1 - p.1, q.2 - p.2) ∈ done) →
      q ∈ s.openL.map Prod.fst ∧
        s.g q ≤ s.g p + ((stepCost p q : ℕ) : WithTop ℕ)

/-- Decidability of one admissible A* edge. -/
instance (gr : Grid) (t : Topology) (u v : Pos) :
    Decidable (AdmissibleStep gr t u v) :=
  inferInstanceAs (Decidable ((v.1 - u.1, v.2 - u.2) ∈ getDirections t ∧
    inBounds gr.cols gr.rows v ∧ gr.cell v ≠ CELL_WALL))

/-- Decidability of `IsPath` (used to check concrete paths on concrete
grids). -/
instance (gr : Grid) (t : Topology) (start goal : Pos) (p : List Pos) :
    Decidable (IsPath gr t start goal p) :=
  inferInstanceAs (Decidable (p.head? = some start ∧ p.getLast? = some goal ∧
    p.Chain' (AdmissibleStep gr t)))

/-- Injective encoding of an in-bounds cell as a number below
`cols * rows`, used to bound the size of the closed set. -/
def encCell (cols : ℕ) (p : Pos) : ℕ := p.1.toNat + cols * p.2.toNat

instance : IsTotal (Pos × WithTop ℕ) (fun a b => a.2 ≤ b.2) :=
  ⟨fun a b => le_total a.2 b.2⟩

instance : IsTrans (Pos × WithTop ℕ) (fun a b => a.2 ≤ b.2) :=
  ⟨fun _ _ _ h1 h2 => le_trans h1 h2⟩

/-! ### A concrete tick used to instantiate the tick theorems

A single agent on a wall-free 2×2 grid, one planned step away from its goal,
committing that step in centralized Von Neumann mode. -/

/-- Witness environment: Von Neumann, centralized, 2×2 wall-free grid. -/
def wEnv : TickEnv := ⟨.vonNeumann, .centralized, 2, [[0, 0], [0, 0]]⟩

/-- Witness agent before its move. -/
def wAgent0 : Agent := ⟨0, (0, 0), (0, 1), [(0, 0), (0, 1)], false, false, ⊤⟩

/-- Witness agent after its move. -/
def wAgent1 : Agent := ⟨0, (0, 1), (0, 1), [(0, 1)], false, false, ⊤⟩

/-- Witness state before the tick. -/
def wS0 : List Agent := [wAgent0]

/-- Witness state after the tick. -/
def wS1 : List Agent := [wAgent1]

/-! # Theorems -/

/-! ## C10: BFS ignores the selected topology -/

/-- **C10**: The BFS strategy's output is independent of the selected
topology: `createPathfinder` passes `currentTopology` to `new BFS(gridData,
currentTopology)`, but the constructor ignores it and fixes the neighbor set
to the 4 orthogonal directions, so BFS constructed with the Moore argument
returns exactly the same path as BFS constructed with the Von Neumann
argument, for every grid, start and goal. -/
theorem bfs_ignores_topology (g : Grid) (t₁ t₂ : Topology) (s e : Pos) :
    (BFS.construct g t₁).findPath s e = (BFS.construct g t₂).findPath s e := rfl

/-! ## C4: a one-element result need not mean start = goal -/

/-- **C4** (the code evaluated at the failing input): `Minimax.findPath` on
the wall-free 2×2 grid returns the one-element sequence `[(0,0)]` for start
`(0,0)` and goal `(0,1)` even though start ≠ goal — the singleton guard
`if (start.x === goal.x && start.y === start.y)` compares `start.y` with
itself, so it fires whenever the x-coordinates agree. -/
theorem minimax_one_element_not_goal :
    Minimax.findPath ⟨[[0, 0], [0, 0]], .vonNeumann⟩ (0, 0) (0, 1) = [(0, 0)] ∧
      ((0, 0) : Pos) ≠ (0, 1) := by decide

/-! ## C5: deadlock re-planning treats other agents as hard walls -/

/-- **C5**: `createModifiedGrid` writes the value `1 = CELL_WALL` at every
agent's cell (despite its comments saying "small penalties (not walls)"),
and `AStar` treats that value as impassable.  Concretely, on the 1×3
corridor with a deadlocked agent at `(0,0)` (target `(2,0)`) and another
agent sitting on its own target `(1,0)`: the modified grid walls off both
agent cells, `findAlternativePath` consequently finds no path at all, yet
the corridor itself is traversable (A* on the unmodified grid goes straight
through `(1,0)`), which a soft-penalty grid would have allowed at extra
cost. -/
theorem modified_grid_marks_agents_as_walls :
    DeadlockHandler.createModifiedGrid [[0, 0, 0]]
        [⟨0, (0, 0), (2, 0), [], false, false, ⊤⟩,
         ⟨1, (1, 0), (1, 0), [], false, false, ⊤⟩] =
      [[CELL_WALL, CELL_WALL, 0]] ∧
    DeadlockHandler.findAlternativePath [[0, 0, 0]]
        [⟨0, (0, 0), (2, 0), [], false, false, ⊤⟩,
         ⟨1, (1, 0), (1, 0), [], false, false, ⊤⟩]
        ⟨0, (0, 0), (2, 0), [], false, false, ⊤⟩ = none ∧
    AStar.findPath [[0, 0, 0]] .vonNeumann (0, 0) (2, 0) =
      [(0, 0), (1, 0), (2, 0)] := by decide

/-! ## C6: the failed-resolution counter is cumulative, not consecutive -/

/-- **C6 (counterexample)**: a tick in which some agent moves does *not*
reset the failed-resolution counter (after 3 failures and one successful
tick the counter is still 3), and the run
fail, move, fail, fail, fail, fail — which never contains 5 *consecutive*
failures — nevertheless triggers the pause-and-restart. -/
theorem failure_counter_counterexample :
    ¬ (simulationStepFailureUpdate false true 3).counter = 0 ∧
      (simulationStepFailureUpdate false true 3).counter = 3 ∧
      (runFailureTicks false 0 [false, true, false, false, false, false]).2 = true := by
  decide

theorem runFailureTicks_restart_iff (ms : List Bool) :
    ∀ c : ℕ, c < 5 →
      ((runFailureTicks false c ms).2 = true ↔ 5 ≤ c + ms.count false) := by
  induction ms with
  | nil =>
      intro c hc
      simp only [runFailureTicks, List.count_nil, Nat.add_zero]
      exact ⟨fun h => absurd h (by simp), fun h => absurd h (by omega)⟩
  | cons m ms ih =>
      intro c hc
      cases m with
      | true =>
          have hcount : (true :: ms).count false = ms.count false := by simp
          have hrun : runFailureTicks false c (true :: ms) =
              ((runFailureTicks false c ms).1,
                false || (runFailureTicks false c ms).2) := by
            simp [runFailureTicks, simulationStepFailureUpdate]
          rw [hcount, hrun]
          simpa using ih c hc
      | false =>
          have hcount : (false :: ms).count false = ms.count false + 1 := by simp
          rw [hcount]
          by_cases h5 : 5 ≤ c + 1
          · have hrun : runFailureTicks false c (false :: ms) =
                ((runFailureTicks false 0 ms).1,
                  true || (runFailureTicks false 0 ms).2) := by
              simp [runFailureTicks, simulationStepFailureUpdate, h5]
            rw [hrun]
            simp only [Bool.true_or]
            exact ⟨fun _ => by omega, fun _ => trivial⟩
          · have hrun : runFailureTicks false c (false :: ms) =
                ((runFailureTicks false (c + 1) ms).1,
                  false || (runFailureTicks false (c + 1) ms).2) := by
              simp [runFailureTicks, simulationStepFailureUpdate, h5]
            rw [hrun]
            have hrec := ih (c + 1) (by omega)
            simp only [Bool.false_or]
            constructor
            · intro h; have := hrec.mp h; omega
            · intro h; exact hrec.mpr (by omega)

/-- **C6 (amended)**: each no-movement tick increments the
failed-resolution counter and a tick with movement leaves it *unchanged*
(it is not reset); outside the distributed-and-sequential early-return
branch, the pause-and-restart (with Sequential mode forced) fires exactly
when the *cumulative* number of no-movement ticks since the last
(re)start — not the number of consecutive ones — reaches 5. -/
theorem failure_counter_cumulative :
    (∀ (ds : Bool) (c : ℕ),
        (simulationStepFailureUpdate ds true c).counter = c ∧
          (simulationStepFailureUpdate ds true c).restartScheduled = false) ∧
      (∀ (ds : Bool) (c : ℕ),
        (simulationStepFailureUpdate ds false c).counter =
          (if ¬ ds = true ∧ 5 ≤ c + 1 then 0 else c + 1)) ∧
      ∀ ms : List Bool,
        ((runFailureTicks false 0 ms).2 = true ↔ 5 ≤ ms.count false) := by
  refine ⟨fun ds c => by cases ds <;> simp [simulationStepFailureUpdate],
    fun ds c => ?_, fun ms => by simpa using runFailureTicks_restart_iff ms 0 (by omega)⟩
  cases ds <;> by_cases h5 : 5 ≤ c + 1 <;>
    simp [simulationStepFailureUpdate, h5]

/-! ## C2: insufficient goals do not stop the simulation from ticking -/

/-- **C2 (counterexample)**: with 3 agents and only 2 goal positions,
`startSimulation` does *not* fail — the assignment is skipped with a
warning, but the simulation is marked running and the tick interval is
installed, so ticks do run. -/
theorem start_insufficient_goals_counterexample :
    (([(4, 4), (3, 4)] : List Pos)).length < 3 ∧
      (startSimulation
          { isSimulationRunning := false
            agents := [⟨0, (0, 0), (0, 0), [], false, false, ⊤⟩,
                       ⟨1, (1, 0), (0, 0), [], false, false, ⊤⟩,
                       ⟨2, (2, 0), (0, 0), [], false, false, ⊤⟩]
            targetPositions := [(4, 4), (3, 4)]
            grid := [[0]] }).2.tickingStarted = true ∧
      (startSimulation
          { isSimulationRunning := false
            agents := [⟨0, (0, 0), (0, 0), [], false, false, ⊤⟩,
                       ⟨1, (1, 0), (0, 0), [], false, false, ⊤⟩,
                       ⟨2, (2, 0), (0, 0), [], false, false, ⊤⟩]
            targetPositions := [(4, 4), (3, 4)]
            grid := [[0]] }).2.assignments = none := by decide

/-- **C2 (amended)**: `startSimulation` refuses to begin (no interval is
installed) only when there are no agents at all or no goals at all; whenever
both sets are nonempty it begins ticking, and the assignment step actually
runs exactly when the goal count is at least the agent count — with fewer
goals than agents the assignment is skipped with a warning but ticking
begins anyway. -/
theorem start_behavior :
    (∀ s : SimConfig, s.isSimulationRunning = false → s.agents ≠ [] →
        s.targetPositions ≠ [] →
        (startSimulation s).2.tickingStarted = true ∧
          ((startSimulation s).2.assignments.isSome ↔
            s.agents.length ≤ s.targetPositions.length)) ∧
      ∀ s : SimConfig, s.isSimulationRunning = false →
        (s.agents = [] ∨ s.targetPositions = []) →
        (startSimulation s).2.tickingStarted = false := by
  constructor
  · intro s hrun hA hT
    have hA' : ¬ s.agents.length = 0 := fun h => hA (List.length_eq_zero.mp h)
    have hT' : ¬ s.targetPositions.length = 0 := fun h => hT (List.length_eq_zero.mp h)
    by_cases hlt : s.targetPositions.length < s.agents.length
    · refine ⟨?_, ?_⟩ <;>
        · simp [startSimulation, assignTargets, hrun, hA', hT', hlt]
          try omega
    · refine ⟨?_, ?_⟩ <;>
        · simp [startSimulation, assignTargets, hrun, hA', hT', hlt]
          try omega
  · intro s hrun h
    rcases h with h | h <;>
      simp [startSimulation, hrun, h]

theorem start_behavior_witness :
    (({ isSimulationRunning := false
        agents := [⟨0, (0, 0), (0, 0), [], false, false, ⊤⟩]
        targetPositions := [(1, 0)]
        grid := [[0, 0]] } : SimConfig)).isSimulationRunning = false ∧
      (startSimulation
          { isSimulationRunning := false
            agents := [⟨0, (0, 0), (0, 0), [], false, false, ⊤⟩]
            targetPositions := [(1, 0)]
            grid := [[0, 0]] }).2.tickingStarted = true ∧
      ((startSimulation
          { isSimulationRunning := false
            agents := [⟨0, (0, 0), (0, 0), [], false, false, ⊤⟩]
            targetPositions := [(1, 0)]
            grid := [[0, 0]] }).2.assignments.isSome ↔
        ([⟨0, (0, 0), (0, 0), [], false, false, ⊤⟩] : List Agent).length ≤
          ([(1, 0)] : List Pos).length) :=
  ⟨rfl,
    start_behavior.1
      { isSimulationRunning := false
        agents := [⟨0, (0, 0), (0, 0), [], false, false, ⊤⟩]
        targetPositions := [(1, 0)]
        grid := [[0, 0]] } rfl (by decide) (by decide)⟩

/-! ## C9: the deadlock counter is monotone and bumps once per resolution -/

theorem updatePositionTracking_count (ags : List Agent) :
    ∀ dh : DeadlockHandler,
      (dh.updatePositionTracking ags).deadlockCount = dh.deadlockCount := by
  induction ags with
  | nil => intro dh; rfl
  | cons a l ih =>
      intro dh
      simpa [DeadlockHandler.updatePositionTracking] using
        ih _

/-- **C9**: the cumulative deadlock counter never decreases across any
sequence of operations on the deadlock handler, and each `resolveDeadlocks`
call that receives a non-empty list of deadlocked agents increments it by
exactly one (regardless of how many agents it resolves). -/
theorem deadlock_count_monotone :
    (∀ (s : DeadlockHandler × List Agent) (ops : List DHOp),
        s.1.deadlockCount ≤ (DHOp.applyAll s ops).1.deadlockCount) ∧
      ∀ (grid : Grid) (s : DeadlockHandler × List Agent) (ids : List ℕ),
        ids ≠ [] →
          (DeadlockHandler.resolveDeadlocks grid s ids).1.deadlockCount =
            s.1.deadlockCount + 1 := by
  have hresolve : ∀ (grid : Grid) (s : DeadlockHandler × List Agent)
      (ids : List ℕ), ids ≠ [] →
      (DeadlockHandler.resolveDeadlocks grid s ids).1.deadlockCount =
        s.1.deadlockCount + 1 := by
    intro grid s ids h
    simp [DeadlockHandler.resolveDeadlocks, h]
  have hstep : ∀ (s : DeadlockHandler × List Agent) (op : DHOp),
      s.1.deadlockCount ≤ (DHOp.apply s op).1.deadlockCount := by
    intro s op
    cases op with
    | updateTracking =>
        simp [DHOp.apply, updatePositionTracking_count]
    | resolve grid ids =>
        by_cases h : ids = []
        · simp [DHOp.apply, DeadlockHandler.resolveDeadlocks, h]
        · simp [DHOp.apply, hresolve grid s ids h]
  refine ⟨?_, hresolve⟩
  intro s ops
  induction ops generalizing s with
  | nil => exact le_refl _
  | cons op ops ih =>
      exact le_trans (hstep s op) (ih (DHOp.apply s op))

theorem deadlock_count_monotone_witness :
    ([0] : List ℕ) ≠ [] ∧
      (DeadlockHandler.resolveDeadlocks [[0]] (DeadlockHandler.init, []) [0]).1.deadlockCount =
        (DeadlockHandler.init, ([] : List Agent)).1.deadlockCount + 1 :=
  ⟨by decide, deadlock_count_monotone.2 [[0]] (DeadlockHandler.init, []) [0] (by decide)⟩

/-! ## C8: the greedy assignment is one-to-one -/

theorem findMinUncovered_mem (row : List ℤ) (cc : ℕ → Bool) :
    ∀ j, findMinUncovered row cc = some j → cc j = false ∧ j < row.length := by
  have key : ∀ (l : List (ℕ × ℤ)) (acc : Option ℤ × Option ℕ),
      (∀ e ∈ l, e.1 < row.length) →
      (∀ j, acc.2 = some j → cc j = false ∧ j < row.length) →
      ∀ j, (l.foldl
          (fun (acc : Option ℤ × Option ℕ) jc =>
            if ¬ cc jc.1 ∧ (acc.1.isNone ∨ acc.1.any (fun mv => jc.2 < mv)) then
              (some jc.2, some jc.1)
            else acc)
          acc).2 = some j → cc j = false ∧ j < row.length := by
    intro l
    induction l with
    | nil => intro acc _ hacc j hj; exact hacc j hj
    | cons e l ih =>
        intro acc hl hacc j
        simp only [List.foldl_cons]
        by_cases hcond : ¬ cc e.1 ∧ (acc.1.isNone ∨ acc.1.any (fun mv => e.2 < mv))
        · rw [if_pos hcond]
          refine ih _ (fun x hx => hl x (List.mem_cons_of_mem _ hx)) ?_ j
          intro j' hj'
          simp only [Option.some_inj] at hj'
          subst hj'
          exact ⟨by simpa using hcond.1, hl e (List.mem_cons_self _ _)⟩
        · rw [if_neg hcond]
          exact ih _ (fun x hx => hl x (List.mem_cons_of_mem _ hx)) hacc j
  intro j hj
  refine key row.enum (none, none) ?_ (by simp) j hj
  intro e he
  rw [List.enum_eq_zip_range] at he
  simpa using List.mem_range.mp (List.of_mem_zip he).1

theorem findMinUncovered_isSome (row : List ℤ) (cc : ℕ → Bool)
    (hex : ∃ j, j < row.length ∧ cc j = false) :
    (findMinUncovered row cc).isSome := by
  have key : ∀ (l : List (ℕ × ℤ)) (acc : Option ℤ × Option ℕ),
      (acc.1.isSome ↔ acc.2.isSome) →
      ((∃ e ∈ l, cc e.1 = false) ∨ acc.2.isSome) →
      ((l.foldl
          (fun (acc : Option ℤ × Option ℕ) jc =>
            if ¬ cc jc.1 ∧ (acc.1.isNone ∨ acc.1.any (fun mv => jc.2 < mv)) then
              (some jc.2, some jc.1)
            else acc)
          acc).2).isSome := by
    intro l
    induction l with
    | nil =>
        intro acc _ hor
        rcases hor with ⟨e, he, _⟩ | hs
        · exact absurd he (List.not_mem_nil e)
        · exact hs
    | cons e l ih =>
        intro acc hiff hor
        simp only [List.foldl_cons]
        by_cases hcond : ¬ cc e.1 ∧ (acc.1.isNone ∨ acc.1.any (fun mv => e.2 < mv))
        · rw [if_pos hcond]
          exact ih _ (by simp) (Or.inr (by simp))
        · rw [if_neg hcond]
          refine ih _ hiff ?_
          rcases hor with ⟨e', he', hcc⟩ | hs
          · rcases List.mem_cons.mp he' with rfl | he''
            · by_cases hs2 : acc.2.isSome
              · exact Or.inr hs2
              · exfalso
                apply hcond
                refine ⟨by simp [hcc], Or.inl ?_⟩
                rw [Option.isNone_iff_eq_none]
                rcases Option.eq_none_or_eq_some acc.1 with h1 | ⟨v, h1⟩
                · exact h1
                · exact absurd (hiff.mp (by simp [h1])) hs2
            · exact Or.inl ⟨e', he'', hcc⟩
          · exact Or.inr hs
  obtain ⟨j, hj, hcc⟩ := hex
  have hmem : (j, row.get ⟨j, hj⟩) ∈ row.enum := by
    rw [List.mk_mem_enum_iff_getElem?]
    simp [List.getElem?_eq_getElem hj]
  exact key row.enum (none, none) (by simp) (Or.inl ⟨_, hmem, hcc⟩)

/-- The pass-1 fold invariant for `findAssignments`. -/
def Pass1Inv (w k : ℕ) (st : List (ℕ × ℕ) × (ℕ → Bool) × (ℕ → Bool)) : Prop :=
  st.1.map Prod.fst = List.range k ∧
    (st.1.map Prod.snd).Nodup ∧
    (∀ p ∈ st.1, p.2 < w) ∧
    (∀ j, st.2.2 j = true ↔ j ∈ st.1.map Prod.snd) ∧
    (∀ i, st.2.1 i = true ↔ i ∈ st.1.map Prod.fst)

theorem findAssignments_spec (costs : List (List ℤ)) (h w : ℕ)
    (hhw : h ≤ w) (hrows : ∀ i, i < h → (costs.getD i []).length = w) :
    (findAssignments costs h w).map Prod.fst = List.range h ∧
      ((findAssignments costs h w).map Prod.snd).Nodup ∧
      ∀ p ∈ findAssignments costs h w, p.2 < w := by
  have main : ∀ k, k ≤ h → Pass1Inv w k (pass1 costs k) := by
    intro k
    induction k with
    | zero =>
        intro _
        exact ⟨by simp [pass1], by simp [pass1], by simp [pass1],
          by simp [pass1], by simp [pass1]⟩
    | succ k ih =>
        intro hk
        obtain ⟨ifst, isnd, ibnd, icc, irc⟩ := ih (Nat.le_of_succ_le hk)
        have hunfold : pass1 costs (k + 1) = pass1Step costs (pass1 costs k) k := by
          simp [pass1, List.range_succ, List.foldl_append]
        set st := pass1 costs k with hst
        have hlen : st.1.length = k := by
          have := congrArg List.length ifst
          simpa using this
        have hrow : (costs.getD k []).length = w := hrows k hk
        have hex : ∃ j, j < (costs.getD k []).length ∧ st.2.2 j = false := by
          by_contra hall
          push_neg at hall
          have hsub : (List.range w) ⊆ st.1.map Prod.snd := by
            intro j hj
            have hjw := List.mem_range.mp hj
            have hne := hall j (by omega)
            have ht : st.2.2 j = true := by
              revert hne; cases st.2.2 j <;> simp
            exact (icc j).mp ht
          have hcard : w ≤ (st.1.map Prod.snd).length := by
            simpa using ((List.nodup_range w).subperm hsub).length_le
          have h5 : (st.1.map Prod.snd).length = k := by simpa using hlen
          omega
        obtain ⟨j0, hj0⟩ := Option.isSome_iff_exists.mp
          (findMinUncovered_isSome _ _ hex)
        obtain ⟨hj0cc, hj0w⟩ := findMinUncovered_mem _ _ _ hj0
        rw [hrow] at hj0w
        have hj0notmem : j0 ∉ st.1.map Prod.snd := fun hmem =>
          by simp [(icc j0).mpr hmem] at hj0cc
        rw [hunfold]
        have hstep : pass1Step costs st k =
            (st.1 ++ [(k, j0)], Function.update st.2.1 k true,
              Function.update st.2.2 j0 true) := by
          unfold pass1Step
          rw [hj0]
        rw [hstep]
        refine ⟨?_, ?_, ?_, ?_, ?_⟩
        · simp only [List.map_append, ifst, List.range_succ, List.map_cons,
            List.map_nil]
        · simp only [List.map_append, List.map_cons, List.map_nil]
          rw [List.nodup_append]
          refine ⟨isnd, List.nodup_singleton _, ?_⟩
          intro a ha hb
          rw [List.mem_singleton] at hb
          subst hb
          exact hj0notmem ha
        · intro p hp
          rcases List.mem_append.mp hp with hp | hp
          · exact ibnd p hp
          · rw [List.mem_singleton] at hp
            subst hp
            exact hj0w
        · intro j
          simp only [Function.update_apply, List.map_append, List.map_cons,
            List.map_nil, List.mem_append, List.mem_singleton]
          by_cases hj : j = j0
          · subst hj
            simp
          · simp only [if_neg hj]
            constructor
            · intro ht; exact Or.inl ((icc j).mp ht)
            · intro hor
              rcases hor with hm | hm
              · exact (icc j).mpr hm
              · exact absurd hm hj
        · intro i
          simp only [Function.update_apply, List.map_append, List.map_cons,
            List.map_nil, List.mem_append, List.mem_singleton]
          by_cases hi : i = k
          · subst hi
            simp
          · simp only [if_neg hi]
            constructor
            · intro ht; exact Or.inl ((irc i).mp ht)
            · intro hor
              rcases hor with hm | hm
              · exact (irc i).mpr hm
              · exact absurd hm hi
  obtain ⟨ifst, isnd, ibnd, _, irc⟩ := main h (le_refl h)
  have hpass2 : ∀ (l : List ℕ) (st : List (ℕ × ℕ) × (ℕ → Bool)),
      (∀ i ∈ l, (pass1 costs h).2.1 i = true) →
      l.foldl (pass2Step (pass1 costs h).2.1 w) st = st := by
    intro l
    induction l with
    | nil => intro st _; rfl
    | cons i l ih =>
        intro st hall
        rw [List.foldl_cons]
        have : pass2Step (pass1 costs h).2.1 w st i = st := by
          simp [pass2Step, hall i (List.mem_cons_self _ _)]
        rw [this]
        exact ih st (fun x hx => hall x (List.mem_cons_of_mem _ hx))
  have hallrc : ∀ i ∈ List.range h, (pass1 costs h).2.1 i = true := by
    intro i hi
    exact (irc i).mpr (ifst ▸ hi)
  have hres : findAssignments costs h w = (pass1 costs h).1 := by
    simp only [findAssignments]
    rw [hpass2 (List.range h) _ hallrc]
  rw [hres]
  exact ⟨ifst, isnd, ibnd⟩

theorem length_getD_reduce (m : List (List ℤ)) (i : ℕ) :
    ((colReduce (rowReduce m)).getD i []).length = (m.getD i []).length := by
  rw [List.getD_eq_getD_get?, List.getD_eq_getD_get?]
  simp only [colReduce, rowReduce, List.get?_map]
  cases hm : m.get? i with
  | none => rfl
  | some row =>
      simp only [Option.map_some', Option.getD_some]
      rw [List.length_mapIdx]
      cases row.min? <;> simp

/-- **C8**: for every list of agent positions and every at-least-as-long
list of goal positions, `findOptimalAssignment` is one-to-one: the agent
indices of the returned pairs are exactly `0, …, n-1` in order (so no agent
index repeats and every agent is paired exactly once), no goal index appears
twice, and every goal index is in range. -/
theorem assignment_one_to_one (agents targets : List Pos) (grid : Grid)
    (hle : agents.length ≤ targets.length) :
    (findOptimalAssignment agents targets grid).map Prod.fst =
        List.range agents.length ∧
      ((findOptimalAssignment agents targets grid).map Prod.snd).Nodup ∧
      ∀ p ∈ findOptimalAssignment agents targets grid, p.2 < targets.length := by
  rcases hmatch : createCostMatrix agents targets grid with _ | ⟨r, rs⟩
  · have hag : agents = [] := by
      have := congrArg List.length hmatch
      simpa [createCostMatrix] using this
    subst hag
    simp [findOptimalAssignment, hungarianAlgorithm, createCostMatrix]
  · have hlenm : (createCostMatrix agents targets grid).length = agents.length := by
      simp [createCostMatrix]
    have hrowlen : ∀ row ∈ createCostMatrix agents targets grid,
        row.length = targets.length := by
      intro row hrow
      simp only [createCostMatrix, List.mem_map] at hrow
      obtain ⟨a, _, rfl⟩ := hrow
      simp
    have hw : ((r :: rs : List (List ℤ)).headD []).length = targets.length := by
      have : r ∈ createCostMatrix agents targets grid :=
        hmatch ▸ List.mem_cons_self _ _
      simpa using hrowlen r this
    have hh : (r :: rs : List (List ℤ)).length = agents.length := by
      rw [← hlenm, hmatch]
    have hres : findOptimalAssignment agents targets grid =
        findAssignments (colReduce (rowReduce (r :: rs))) (r :: rs).length
          ((r :: rs).headD []).length := by
      rw [findOptimalAssignment, hmatch, hungarianAlgorithm]
      simp
    have hred : ∀ i, i < (r :: rs : List (List ℤ)).length →
        ((colReduce (rowReduce (r :: rs))).getD i []).length =
          ((r :: rs : List (List ℤ)).headD []).length := by
      intro i hi
      rw [length_getD_reduce]
      have hmem : (r :: rs : List (List ℤ)).getD i [] ∈ (r :: rs : List (List ℤ)) := by
        rw [List.getD_eq_get _ _ hi]
        exact List.get_mem _ _ _
      rw [hw]
      exact hrowlen _ (hmatch ▸ hmem)
    have spec := findAssignments_spec (colReduce (rowReduce (r :: rs)))
      (r :: rs).length ((r :: rs).headD []).length
      (by rw [hh, hw]; exact hle) hred
    rw [← hres, hh, hw] at spec
    exact spec

theorem assignment_one_to_one_witness :
    ([(0, 0)] : List Pos).length ≤ ([(1, 0)] : List Pos).length ∧
      ((findOptimalAssignment [(0, 0)] [(1, 0)] [[0, 0]]).map Prod.fst =
          List.range ([(0, 0)] : List Pos).length ∧
        ((findOptimalAssignment [(0, 0)] [(1, 0)] [[0, 0]]).map Prod.snd).Nodup ∧
        ∀ p ∈ findOptimalAssignment [(0, 0)] [(1, 0)] [[0, 0]],
          p.2 < ([(1, 0)] : List Pos).length) :=
  ⟨by decide, assignment_one_to_one [(0, 0)] [(1, 0)] [[0, 0]] (by decide)⟩

/-! ## C1 and C7: helper lemmas about topology steps and lists -/

theorem mem_getNeighbors_iff (x y : ℤ) (t : Topology) (n : ℕ) (p : Pos) :
    p ∈ getNeighbors x y t n ↔
      ((p.1 - x, p.2 - y) ∈ getDirections t ∧ inBounds n n p) := by
  unfold getNeighbors
  rw [List.mem_filter]
  constructor
  · rintro ⟨hm, hb⟩
    rw [List.mem_map] at hm
    obtain ⟨d, hd, rfl⟩ := hm
    have h1 : x + d.1 - x = d.1 := by ring
    have h2 : y + d.2 - y = d.2 := by ring
    refine ⟨?_, by simpa using hb⟩
    simpa [h1, h2] using hd
  · rintro ⟨hd, hb⟩
    refine ⟨List.mem_map.mpr ⟨(p.1 - x, p.2 - y), hd, ?_⟩, by simpa using hb⟩
    have h1 : x + (p.1 - x) = p.1 := by ring
    have h2 : y + (p.2 - y) = p.2 := by ring
    simp [h1, h2]

theorem dirs_abs_le (t : Topology) (d : Pos) (h : d ∈ getDirections t) :
    d.1.natAbs + d.2.natAbs ≤ 2 := by
  cases t <;> simp only [getDirections] at h <;> fin_cases h <;> decide

theorem dirs_neg (t : Topology) (d : Pos) (h : d ∈ getDirections t) :
    ((-d.1, -d.2) : Pos) ∈ getDirections t := by
  cases t <;> simp only [getDirections] at h <;> fin_cases h <;> decide

theorem orth_mem_dirs (t : Topology) (d : Pos)
    (h : d.1.natAbs + d.2.natAbs = 1) : d ∈ getDirections t := by
  obtain ⟨d1, d2⟩ := d
  simp only at h
  have hcases : d1.natAbs = 0 ∧ d2.natAbs = 1 ∨ d1.natAbs = 1 ∧ d2.natAbs = 0 := by
    omega
  rcases hcases with ⟨h1, h2⟩ | ⟨h1, h2⟩
  · have hd1 : d1 = 0 := Int.natAbs_eq_zero.mp h1
    have hd2 : d2 = 1 ∨ d2 = -1 := by
      rcases Int.natAbs_eq d2 with he | he
      · left; rw [he, h2]; rfl
      · right; rw [he, h2]; rfl
    subst hd1
    rcases hd2 with rfl | rfl <;> cases t <;> decide
  · have hd2 : d2 = 0 := Int.natAbs_eq_zero.mp h2
    have hd1 : d1 = 1 ∨ d1 = -1 := by
      rcases Int.natAbs_eq d1 with he | he
      · left; rw [he, h1]; rfl
      · right; rw [he, h1]; rfl
    subst hd2
    rcases hd1 with rfl | rfl <;> cases t <;> decide

theorem stepOK_manhattan (t : Topology) (n : ℕ) (u v : Pos)
    (h : StepOK t n u v) : manhattan u v ≤ 2 ∧ inBounds n n v := by
  rw [StepOK, mem_getNeighbors_iff] at h
  refine ⟨?_, h.2⟩
  have := dirs_abs_le t _ h.1
  simp only at this
  unfold manhattan
  have h1 : u.1 - v.1 = -(v.1 - u.1) := by ring
  have h2 : u.2 - v.2 = -(v.2 - u.2) := by ring
  rw [h1, h2, Int.natAbs_neg, Int.natAbs_neg]
  omega

theorem stepOK_symm (t : Topology) (n : ℕ) (u v : Pos)
    (h : StepOK t n u v) (hu : inBounds n n u) : StepOK t n v u := by
  rw [StepOK, mem_getNeighbors_iff] at h ⊢
  refine ⟨?_, hu⟩
  have := dirs_neg t _ h.1
  have h1 : u.1 - v.1 = -(v.1 - u.1) := by ring
  have h2 : u.2 - v.2 = -(v.2 - u.2) := by ring
  rw [h1, h2]
  exact this

theorem manhattan_one_stepOK (t : Topology) (n : ℕ) (u v : Pos)
    (h : manhattan u v = 1) (hv : inBounds n n v) : StepOK t n u v := by
  rw [StepOK, mem_getNeighbors_iff]
  refine ⟨orth_mem_dirs t _ ?_, hv⟩
  unfold manhattan at h
  have h1 : u.1 - v.1 = -(v.1 - u.1) := by ring
  have h2 : u.2 - v.2 = -(v.2 - u.2) := by ring
  rw [h1, h2, Int.natAbs_neg, Int.natAbs_neg] at h
  simpa using h

theorem list_set_self {α : Type} (l : List α) (i : ℕ) (a : α)
    (h : l.get? i = some a) : l.set i a = l := by
  apply List.ext_get?
  intro n
  by_cases hn : n = i
  · subst hn
    rw [List.get?_set_eq, h]
    rfl
  · exact List.get?_set_ne _ _ (fun he => hn he.symm)

theorem get?_ids_ne (s : List Agent) (hnd : (s.map (·.id)).Nodup)
    {i k : ℕ} (hne : i ≠ k) {a b : Agent}
    (ha : s.get? i = some a) (hb : s.get? k = some b) : a.id ≠ b.id := by
  rw [List.nodup_iff_get?_ne_get?] at hnd
  have hida : (s.map (·.id)).get? i = some a.id := by
    rw [List.get?_map, ha]; rfl
  have hidb : (s.map (·.id)).get? k = some b.id := by
    rw [List.get?_map, hb]; rfl
  have hkl : k < (s.map (·.id)).length := by
    rw [List.length_map]
    exact (List.get?_eq_some.mp hb).1
  have hil : i < (s.map (·.id)).length := by
    rw [List.length_map]
    exact (List.get?_eq_some.mp ha).1
  intro heq
  rcases Nat.lt_or_ge i k with hlt | hge
  · exact hnd i k hlt hkl (by rw [hida, hidb, heq])
  · have hlt : k < i := by omega
    exact hnd k i hlt hil (by rw [hida, hidb, heq])

theorem nodup_set_of_fresh {α : Type} (l : List α) (i : ℕ) (a : α)
    (hnd : l.Nodup) (hi : i < l.length)
    (hfresh : ∀ k, k ≠ i → ∀ b, l.get? k = some b → b ≠ a) :
    (l.set i a).Nodup := by
  have hgi : (l.set i a).get? i = some a := by
    rw [List.get?_set_eq]
    have h1 : l.get? i = some (l.get ⟨i, hi⟩) := List.get?_eq_some.mpr ⟨hi, rfl⟩
    rw [h1]
    rfl
  rw [List.nodup_iff_get?_ne_get?] at hnd ⊢
  intro k m hkm hm
  rw [List.length_set] at hm
  by_cases hk : k = i
  · subst hk
    rw [hgi, List.get?_set_ne _ _ (Nat.ne_of_lt hkm)]
    rcases hb : l.get? m with _ | b
    · simp
    · intro he
      exact hfresh m (by omega) b hb (Option.some_inj.mp he).symm
  · by_cases hm2 : m = i
    · subst hm2
      rw [hgi, List.get?_set_ne _ _ (fun he => hk he.symm)]
      rcases hb : l.get? k with _ | b
      · simp
      · intro he
        exact hfresh k hk b hb (Option.some_inj.mp he)
    · rw [List.get?_set_ne _ _ (fun he => hk he.symm),
        List.get?_set_ne _ _ (fun he => hm2 he.symm)]
      exact hnd k m hkm hm

theorem nodup_swap {α : Type} (l : List α) (i j : ℕ) (hij : i ≠ j)
    (a b : α) (ha : l.get? i = some a) (hb : l.get? j = some b)
    (hnd : l.Nodup) : ((l.set i b).set j a).Nodup := by
  have hi : i < l.length := (List.get?_eq_some.mp ha).1
  have hj : j < l.length := (List.get?_eq_some.mp hb).1
  have hget : ∀ k, ((l.set i b).set j a).get? k =
      if k = j then some a else if k = i then some b else l.get? k := by
    intro k
    by_cases hkj : k = j
    · subst hkj
      rw [if_pos rfl, List.get?_set_eq, List.get?_set_ne _ _ hij, hb]
      rfl
    · rw [if_neg hkj, List.get?_set_ne _ _ (fun he => hkj he.symm)]
      by_cases hki : k = i
      · subst hki
        rw [if_pos rfl, List.get?_set_eq, ha]
        rfl
      · rw [if_neg hki, List.get?_set_ne _ _ (fun he => hki he.symm)]
  rw [List.nodup_iff_get?_ne_get?] at hnd ⊢
  have inj : ∀ x y, x ≠ y → y < l.length → l.get? x ≠ l.get? y := by
    intro x y hxy hyl
    by_cases hxl : x < l.length
    · rcases Nat.lt_or_ge x y with h | h
      · exact hnd x y h hyl
      · have hyx : y < x := by omega
        intro he
        exact hnd y x hyx hxl he.symm
    · have hx : l.get? x = none := List.get?_eq_none.mpr (by omega)
      have hy : l.get? y = some (l.get ⟨y, hyl⟩) := List.get?_eq_some.mpr ⟨hyl, rfl⟩
      rw [hx, hy]
      simp
  intro k m hkm hm
  rw [List.length_set, List.length_set] at hm
  rw [hget, hget]
  by_cases hkj : k = j
  · rw [if_pos hkj]
    have hmj : m ≠ j := by omega
    rw [if_neg hmj]
    by_cases hmi : m = i
    · rw [if_pos hmi]
      intro he
      exact inj i j hij hj (by rw [ha, hb]; exact he)
    · rw [if_neg hmi]
      intro he
      exact inj m i hmi hi (by rw [ha]; exact he.symm)
  · rw [if_neg hkj]
    by_cases hki : k = i
    · rw [if_pos hki]
      by_cases hmj : m = j
      · rw [if_pos hmj]
        intro he
        exact inj i j hij hj (by rw [ha, hb]; exact he.symm)
      · rw [if_neg hmj]
        have hmi : m ≠ i := by omega
        rw [if_neg hmi]
        intro he
        exact inj m j hmj hj (by rw [hb]; exact he.symm)
    · rw [if_neg hki]
      by_cases hmj : m = j
      · rw [if_pos hmj]
        intro he
        exact inj k i hki hi (by rw [ha]; exact he)
      · rw [if_neg hmj]
        by_cases hmi : m = i
        · rw [if_pos hmi]
          intro he
          exact inj k j hkj hj (by rw [hb]; exact he)
        · rw [if_neg hmi]
          exact hnd k m hkm hm

theorem wfPath_next (t : Topology) (n : ℕ) (pos : Pos) (p : List Pos)
    (next : Pos) (hwf : WFPath t n pos p) (h : p.get? 1 = some next) :
    StepOK t n pos next := by
  match p, h with
  | x :: y :: rest, h =>
      have hy : y = next := by simpa using h
      rcases hwf with hnil | ⟨hhead, hchain⟩
      · cases hnil
      · have hx : x = pos := by simpa using hhead
        subst hx
        subst hy
        exact (List.chain'_cons.mp hchain).1

theorem wfPath_shift (t : Topology) (n : ℕ) (pos : Pos) (p : List Pos)
    (next : Pos) (hwf : WFPath t n pos p) (h : p.get? 1 = some next) :
    WFPath t n next (p.drop 1) := by
  match p, h with
  | x :: y :: rest, h =>
      have hy : y = next := by simpa using h
      rcases hwf with hnil | ⟨_, hchain⟩
      · cases hnil
      · subst hy
        exact Or.inr ⟨by simp, (List.chain'_cons.mp hchain).2⟩

theorem planUpdate_map_pos (env : TickEnv) (s s' : List Agent)
    (h : PlanUpdate env s s') : s.map (·.pos) = s'.map (·.pos) := by
  apply List.ext_get?
  intro k
  rw [List.get?_map, List.get?_map]
  exact (h.2.1 k).1

theorem planUpdate_good (env : TickEnv) (s s' : List Agent)
    (hg : GoodState env s) (h : PlanUpdate env s s') : GoodState env s' := by
  obtain ⟨hlen, hpt, hwf⟩ := h
  refine ⟨?_, ?_⟩
  · have hids : s.map (·.id) = s'.map (·.id) := by
      apply List.ext_get?
      intro k
      rw [List.get?_map, List.get?_map]
      exact (hpt k).2
    rw [← hids]
    exact hg.1
  · intro a' ha'
    obtain ⟨k, hk⟩ := List.mem_iff_get?.mp ha'
    have hpos := (hpt k).1
    rw [hk] at hpos
    rcases hs : s.get? k with _ | a
    · rw [hs] at hpos
      cases hpos
    · rw [hs] at hpos
      have hpeq : a.pos = a'.pos := by simpa using hpos
      have hmem : a ∈ s := List.get?_mem hs
      refine ⟨(hwf a' ha').1, (hwf a' ha').2, ?_⟩
      rw [← hpeq]
      exact (hg.2 a hmem).2.2

/-- Pointwise effect of `List.set` on the position map. -/
theorem get?_map_pos_set (s : List Agent) (i : ℕ) (a' : Agent) (k : ℕ) :
    ((s.set i a').map (·.pos)).get? k =
      if k = i then ((s.map (·.pos)).get? k).map (fun _ => a'.pos)
      else (s.map (·.pos)).get? k := by
  rw [List.map_set]
  by_cases hk : k = i
  · subst hk
    rw [if_pos rfl, List.get?_set_eq]
    rfl
  · rw [if_neg hk, List.get?_set_ne _ _ (fun he => hk he.symm)]

theorem moveCommit_nodup (env : TickEnv) (i : ℕ) (s s' : List Agent)
    (h : MoveCommit env i s s') (hg : GoodState env s)
    (hnd : (s.map (·.pos)).Nodup) : (s'.map (·.pos)).Nodup := by
  obtain ⟨a, next, ha, hnat, hnext, hocc⟩ := h
  rw [List.map_set]
  have hi : i < (s.map (·.pos)).length := by
    rw [List.length_map]
    exact (List.get?_eq_some.mp ha).1
  have hstep : StepOK env.topology env.gridSize a.pos next := by
    have hmem : a ∈ s := List.get?_mem ha
    exact wfPath_next _ _ _ _ _ (hg.2 a hmem).1 hnext
  have hfresh : ∀ k, k ≠ i → ∀ ppos, (s.map (·.pos)).get? k = some ppos →
      ppos ≠ next := by
    intro k hk ppos hppos
    rw [List.get?_map] at hppos
    rcases hb : s.get? k with _ | b
    · rw [hb] at hppos
      cases hppos
    · rw [hb] at hppos
      have hbp : b.pos = ppos := by simpa using hppos
      have hbid : b.id ≠ a.id :=
        get?_ids_ne s hg.1 hk hb ha
      have hbmem : b ∈ s := List.get?_mem hb
      intro hpe
      subst hbp
      subst hpe
      cases hdm : env.decisionMode with
      | centralized =>
          have hocc' := hocc
          rw [moveAllowed, hdm] at hocc'
          exact hocc' b hbmem hbid rfl
      | distributed =>
          have hocc' := hocc
          rw [moveAllowed, hdm] at hocc'
          refine hocc' b hbmem hbid rfl ?_
          have hman : manhattan a.pos b.pos ≤ 2 := (stepOK_manhattan _ _ _ _ hstep).1
          have hvis : (3 : WithTop ℕ) ≤ a.visibilityRange :=
            (hg.2 a (List.get?_mem ha)).2.1
          calc ((manhattan a.pos b.pos : ℕ) : WithTop ℕ)
              ≤ ((2 : ℕ) : WithTop ℕ) := by exact_mod_cast hman
            _ ≤ (3 : WithTop ℕ) := by
                norm_num
            _ ≤ a.visibilityRange := hvis
  exact nodup_set_of_fresh (s.map (·.pos)) i next hnd hi hfresh

theorem manhattan_comm (u v : Pos) : manhattan u v = manhattan v u := by
  unfold manhattan
  have h1 : u.1 - v.1 = -(v.1 - u.1) := by ring
  have h2 : u.2 - v.2 = -(v.2 - u.2) := by ring
  rw [h1, h2, Int.natAbs_neg, Int.natAbs_neg]

theorem pos_eq_extract {s s' : List Agent} {k : ℕ}
    (h : (s.get? k).map (·.pos) = (s'.get? k).map (·.pos)) {a' : Agent}
    (ha' : s'.get? k = some a') : ∃ a, s.get? k = some a ∧ a.pos = a'.pos := by
  rw [ha'] at h
  rcases hs : s.get? k with _ | a
  · rw [hs] at h
    cases h
  · rw [hs] at h
    exact ⟨a, rfl, by simpa using h⟩

theorem pos_eq_extract' {s s' : List Agent} {k : ℕ}
    (h : (s.get? k).map (·.pos) = (s'.get? k).map (·.pos)) {a : Agent}
    (ha : s.get? k = some a) : ∃ a', s'.get? k = some a' ∧ a'.pos = a.pos := by
  rw [ha] at h
  rcases hs : s'.get? k with _ | a'
  · rw [hs] at h
    cases h
  · rw [hs] at h
    exact ⟨a', rfl, by simpa using h.symm⟩

theorem moveCommit_good (env : TickEnv) (i : ℕ) (s s' : List Agent)
    (h : MoveCommit env i s s') (hg : GoodState env s) : GoodState env s' := by
  obtain ⟨a, next, ha, hnat, hnext, hocc⟩ := h
  have hstep : StepOK env.topology env.gridSize a.pos next :=
    wfPath_next _ _ _ _ _ (hg.2 a (List.get?_mem ha)).1 hnext
  constructor
  · rw [List.map_set]
    have hset : ∀ x : Agent, x.id = a.id →
        (s.map (·.id)).set i x.id = s.map (·.id) := by
      intro x hx
      rw [hx]
      apply list_set_self
      rw [List.get?_map, ha]
      rfl
    rw [hset _ rfl]
    exact hg.1
  · intro b hb
    rcases List.mem_or_eq_of_mem_set hb with hbs | rfl
    · exact hg.2 b hbs
    · refine ⟨?_, (hg.2 a (List.get?_mem ha)).2.1, (stepOK_manhattan _ _ _ _ hstep).2⟩
      by_cases htar : next = a.target
      · rw [if_pos htar]
        exact Or.inr ⟨rfl, List.chain'_singleton _⟩
      · rw [if_neg htar]
        exact wfPath_shift _ _ _ _ _ (hg.2 a (List.get?_mem ha)).1 hnext

theorem forcedCommit_nodup (env : TickEnv) (i : ℕ) (s s' : List Agent)
    (h : ForcedCommit env i s s') (hg : GoodState env s)
    (hnd : (s.map (·.pos)).Nodup) : (s'.map (·.pos)).Nodup := by
  obtain ⟨a, tempPos, ha, hat, hnb, hwall, hocc⟩ := h
  rw [List.map_set]
  have hi : i < (s.map (·.pos)).length := by
    rw [List.length_map]
    exact (List.get?_eq_some.mp ha).1
  refine nodup_set_of_fresh _ i tempPos hnd hi ?_
  intro k hk ppos hppos
  rw [List.get?_map] at hppos
  rcases hb : s.get? k with _ | b
  · rw [hb] at hppos
    cases hppos
  · rw [hb] at hppos
    have hbp : b.pos = ppos := by simpa using hppos
    intro hpe
    exact hocc b (List.get?_mem hb) (get?_ids_ne s hg.1 hk hb ha) (by rw [hbp, hpe])

theorem randomCommit_nodup (env : TickEnv) (i : ℕ) (s s' : List Agent)
    (h : RandomCommit env i s s') (hg : GoodState env s)
    (hnd : (s.map (·.pos)).Nodup) : (s'.map (·.pos)).Nodup := by
  obtain ⟨a, n, ha, hnat, hnb, hwall, hocc⟩ := h
  rw [List.map_set]
  have hi : i < (s.map (·.pos)).length := by
    rw [List.length_map]
    exact (List.get?_eq_some.mp ha).1
  refine nodup_set_of_fresh _ i n hnd hi ?_
  intro k hk ppos hppos
  rw [List.get?_map] at hppos
  rcases hb : s.get? k with _ | b
  · rw [hb] at hppos
    cases hppos
  · rw [hb] at hppos
    have hbp : b.pos = ppos := by simpa using hppos
    intro hpe
    exact hocc b (List.get?_mem hb) (get?_ids_ne s hg.1 hk hb ha) (by rw [hbp, hpe])

theorem swapCommit_nodup (env : TickEnv) (i j : ℕ) (s s' : List Agent)
    (h : SwapCommit env i j s s') (hnd : (s.map (·.pos)).Nodup) :
    (s'.map (·.pos)).Nodup := by
  obtain ⟨a, b, ha, hb, hij, hadj, himpr⟩ := h
  have hmapped : ((s.set i { a with pos := b.pos }).set j
      { b with pos := a.pos }).map (·.pos) =
      (((s.map (·.pos)).set i b.pos).set j a.pos) := by
    rw [List.map_set, List.map_set]
  rw [hmapped]
  refine nodup_swap _ i j hij a.pos b.pos ?_ ?_ hnd
  · rw [List.get?_map, ha]
    rfl
  · rw [List.get?_map, hb]
    rfl

theorem mainPass_preserves (env : TickEnv) {order : List ℕ} {m : Bool}
    {s s' : List Agent} (h : MainPass env order m s s') :
    GoodState env s → (s.map (·.pos)).Nodup →
      GoodState env s' ∧ (s'.map (·.pos)).Nodup := by
  induction h with
  | nil s => exact fun hg hnd => ⟨hg, hnd⟩
  | skip i is m s s₁ s₂ hplan hrest ih =>
      intro hg hnd
      refine ih (planUpdate_good env s s₁ hg hplan) ?_
      rw [← planUpdate_map_pos env s s₁ hplan]
      exact hnd
  | move i is m s s₁ s₂ s₃ s₄ hplan hmove hpost hrest ih =>
      intro hg hnd
      have hg1 := planUpdate_good env s s₁ hg hplan
      have hnd1 : (s₁.map (·.pos)).Nodup := by
        rw [← planUpdate_map_pos env s s₁ hplan]
        exact hnd
      have hg2 := moveCommit_good env i s₁ s₂ hmove hg1
      have hnd2 := moveCommit_nodup env i s₁ s₂ hmove hg1 hnd1
      refine ih (planUpdate_good env s₂ s₃ hg2 hpost) ?_
      rw [← planUpdate_map_pos env s₂ s₃ hpost]
      exact hnd2

theorem escal_nodup (env : TickEnv) {s s' : List Agent}
    (h : EscalationMove env s s') (hg : GoodState env s)
    (hnd : (s.map (·.pos)).Nodup) : (s'.map (·.pos)).Nodup := by
  cases h with
  | none_ s => exact hnd
  | forced i s s' hf => exact forcedCommit_nodup env i s s' hf hg hnd
  | swap i j s s' hsw => exact swapCommit_nodup env i j s s' hsw hnd
  | random i s s' hr => exact randomCommit_nodup env i s s' hr hg hnd

theorem moveCommit_get?_pos_ne (env : TickEnv) (i : ℕ) {s s' : List Agent}
    (h : MoveCommit env i s s') (k : ℕ) (hk : k ≠ i) :
    (s.get? k).map (·.pos) = (s'.get? k).map (·.pos) := by
  obtain ⟨a, next, ha, hnat, hnext, hocc⟩ := h
  rw [List.get?_set_ne _ _ (fun he => hk he.symm)]

theorem moveCommit_get?_pos_eq (env : TickEnv) (i : ℕ) {s s' : List Agent}
    (h : MoveCommit env i s s') (hg : GoodState env s) :
    ∃ a a', s.get? i = some a ∧ s'.get? i = some a' ∧
      StepOK env.topology env.gridSize a.pos a'.pos := by
  obtain ⟨a, next, ha, hnat, hnext, hocc⟩ := h
  have hstep : StepOK env.topology env.gridSize a.pos next :=
    wfPath_next _ _ _ _ _ (hg.2 a (List.get?_mem ha)).1 hnext
  refine ⟨a,
    { a with pos := next, path := if next = a.target then [next] else a.path.drop 1 },
    ha, ?_, hstep⟩
  rw [List.get?_set_eq, ha]
  rfl

theorem mainPass_untouched (env : TickEnv) {order : List ℕ} {m : Bool}
    {s s' : List Agent} (h : MainPass env order m s s') :
    ∀ k, k ∉ order → (s.get? k).map (·.pos) = (s'.get? k).map (·.pos) := by
  induction h with
  | nil s => exact fun k _ => rfl
  | skip i is m s s₁ s₂ hplan hrest ih =>
      intro k hk
      rw [(hplan.2.1 k).1]
      exact ih k (fun hm => hk (List.mem_cons_of_mem _ hm))
  | move i is m s s₁ s₂ s₃ s₄ hplan hmove hpost hrest ih =>
      intro k hk
      have hki : k ≠ i := fun he => hk (he ▸ List.mem_cons_self _ _)
      rw [(hplan.2.1 k).1, moveCommit_get?_pos_ne env i hmove k hki,
        (hpost.2.1 k).1]
      exact ih k (fun hm => hk (List.mem_cons_of_mem _ hm))

theorem mainPass_pointwise (env : TickEnv) {order : List ℕ} {m : Bool}
    {s s' : List Agent} (h : MainPass env order m s s') :
    GoodState env s → order.Nodup →
    ∀ k, ((s.get? k).map (·.pos) = (s'.get? k).map (·.pos)) ∨
      (∃ a a', s.get? k = some a ∧ s'.get? k = some a' ∧
        StepOK env.topology env.gridSize a.pos a'.pos) := by
  induction h with
  | nil s => exact fun _ _ k => Or.inl rfl
  | skip i is m s s₁ s₂ hplan hrest ih =>
      intro hg hnd k
      have hg1 := planUpdate_good env s s₁ hg hplan
      have heq := (hplan.2.1 k).1
      rcases ih hg1 (List.Nodup.of_cons hnd) k with he | ⟨a, a', ha, ha', hstep⟩
      · exact Or.inl (heq.trans he)
      · obtain ⟨a₀, ha₀, hp⟩ := pos_eq_extract heq ha
        exact Or.inr ⟨a₀, a', ha₀, ha', by rw [hp]; exact hstep⟩
  | move i is m s s₁ s₂ s₃ s₄ hplan hmove hpost hrest ih =>
      intro hg hnd k
      have hg1 := planUpdate_good env s s₁ hg hplan
      have hg2 := moveCommit_good env i s₁ s₂ hmove hg1
      have hg3 := planUpdate_good env s₂ s₃ hg2 hpost
      have hndis : is.Nodup := List.Nodup.of_cons hnd
      have hinotin : i ∉ is := (List.nodup_cons.mp hnd).1
      by_cases hk : k = i
      · subst hk
        obtain ⟨a₁, a₂, ha₁, ha₂, hstep⟩ := moveCommit_get?_pos_eq env k hmove hg1
        obtain ⟨a₀, ha₀, hp0⟩ := pos_eq_extract (hplan.2.1 k).1 ha₁
        have heq2 : (s₂.get? k).map (·.pos) = (s₄.get? k).map (·.pos) :=
          ((hpost.2.1 k).1).trans (mainPass_untouched env hrest k hinotin)
        obtain ⟨a₄, ha₄, hp4⟩ := pos_eq_extract' heq2 ha₂
        exact Or.inr ⟨a₀, a₄, ha₀, ha₄, by rw [hp0, hp4]; exact hstep⟩
      · have heq1 := (hplan.2.1 k).1
        have heqm := moveCommit_get?_pos_ne env i hmove k hk
        have heq3 := (hpost.2.1 k).1
        rcases ih hg3 hndis k with he | ⟨a, a', ha, ha', hstep⟩
        · exact Or.inl (((heq1.trans heqm).trans heq3).trans he)
        · obtain ⟨a₀, ha₀, hp⟩ := pos_eq_extract ((heq1.trans heqm).trans heq3) ha
          exact Or.inr ⟨a₀, a', ha₀, ha', by rw [hp]; exact hstep⟩

theorem mainPass_good (env : TickEnv) {order : List ℕ} {m : Bool}
    {s s' : List Agent} (h : MainPass env order m s s') :
    GoodState env s → GoodState env s' := by
  induction h with
  | nil s => exact id
  | skip i is m s s₁ s₂ hplan hrest ih =>
      exact fun hg => ih (planUpdate_good env s s₁ hg hplan)
  | move i is m s s₁ s₂ s₃ s₄ hplan hmove hpost hrest ih =>
      intro hg
      exact ih (planUpdate_good env s₂ s₃
        (moveCommit_good env i s₁ s₂ hmove (planUpdate_good env s s₁ hg hplan)) hpost)

theorem mainPass_false_pointwise (env : TickEnv) {order : List ℕ} {m : Bool}
    {s s' : List Agent} (h : MainPass env order m s s') :
    m = false →
      ∀ k, (s.get? k).map (·.pos) = (s'.get? k).map (·.pos) := by
  induction h with
  | nil s => exact fun _ k => rfl
  | skip i is m s s₁ s₂ hplan hrest ih =>
      intro hm k
      rw [(hplan.2.1 k).1]
      exact ih hm k
  | move i is m s s₁ s₂ s₃ s₄ hplan hmove hpost hrest ih =>
      exact fun hm => Bool.noConfusion hm

theorem escal_pointwise (env : TickEnv) {s s' : List Agent}
    (h : EscalationMove env s s') (hg : GoodState env s) :
    ∀ k, ((s.get? k).map (·.pos) = (s'.get? k).map (·.pos)) ∨
      (∃ a a', s.get? k = some a ∧ s'.get? k = some a' ∧
        StepOK env.topology env.gridSize a.pos a'.pos) := by
  cases h with
  | none_ s => exact fun k => Or.inl rfl
  | forced i s s' hf =>
      intro k
      obtain ⟨a, tempPos, ha, hat, hnb, hwall, hocc⟩ := hf
      by_cases hk : k = i
      · subst hk
        refine Or.inr ⟨a,
          ⟨a.id, tempPos, a.target, [tempPos, a.target], a.isRetreating, true,
            a.visibilityRange⟩, ha, ?_, hnb⟩
        rw [List.get?_set_eq, ha]
        rfl
      · left
        rw [List.get?_set_ne _ _ (fun he => hk he.symm)]
  | random i s s' hr =>
      intro k
      obtain ⟨a, n, ha, hnat, hnb, hwall, hocc⟩ := hr
      by_cases hk : k = i
      · subst hk
        refine Or.inr ⟨a, { a with pos := n, path := [] }, ha, ?_, hnb⟩
        rw [List.get?_set_eq, ha]
        rfl
      · left
        rw [List.get?_set_ne _ _ (fun he => hk he.symm)]
  | swap i j s s' hsw =>
      intro k
      obtain ⟨a, b, ha, hb, hij, hadj, himpr⟩ := hsw
      by_cases hkj : k = j
      · subst hkj
        refine Or.inr ⟨b, { b with pos := a.pos }, hb, ?_, ?_⟩
        · rw [List.get?_set_eq, List.get?_set_ne _ _ hij, hb]
          rfl
        · refine manhattan_one_stepOK _ _ _ _ ?_ ?_
          · rw [manhattan_comm]
            exact hadj
          · exact (hg.2 a (List.get?_mem ha)).2.2
      · by_cases hki : k = i
        · subst hki
          refine Or.inr ⟨a, { a with pos := b.pos }, ha, ?_, ?_⟩
          · rw [List.get?_set_ne _ _ (fun he => hkj he.symm), List.get?_set_eq, ha]
            rfl
          · exact manhattan_one_stepOK _ _ _ _ hadj
              (hg.2 b (List.get?_mem hb)).2.2
        · left
          rw [List.get?_set_ne _ _ (fun he => hkj he.symm),
            List.get?_set_ne _ _ (fun he => hki he.symm)]

/-- **C1**: after a committed tick no two agents occupy the same grid cell:
every movement commit of `simulationStep` (ordinary path step, forced
displacement of a goal-sitting agent, pairwise swap, and random move) checks
occupancy before writing the new position — against the full agent list, or,
in distributed mode, against the agents within the mover's visibility range,
which always covers the at-most-two-cells step distance since visibility is
at least 3 — so pairwise-distinct positions are preserved by `Tick`. -/
theorem step_preserves_no_overlap (env : TickEnv) (s s' : List Agent)
    (htick : Tick env s s') (hgood : GoodState env s)
    (hnodup : (s.map (·.pos)).Nodup) : (s'.map (·.pos)).Nodup := by
  cases htick with
  | moved order sA sB hnd hpass =>
      exact (mainPass_preserves env hpass hgood hnodup).2
  | stalled order sA s₁ s₂ s₃ sB hnd hpass hpre hesc hpost =>
      obtain ⟨hg1, hnd1⟩ := mainPass_preserves env hpass hgood hnodup
      have hg2 := planUpdate_good env s₁ s₂ hg1 hpre
      have hnd2 : (s₂.map (·.pos)).Nodup := by
        rw [← planUpdate_map_pos env s₁ s₂ hpre]
        exact hnd1
      have hnd3 := escal_nodup env hesc hg2 hnd2
      rw [← planUpdate_map_pos env s₃ _ hpost]
      exact hnd3

/-- **C7**: in every tick each agent's position changes by at most one cell
of the active topology between the state before `step()` and the state after
it returns: the movement loop advances each agent at most once along its
(topology-adjacent) plan, and a no-movement tick commits at most one
escalation tactic, each of which is a single topology step. -/
theorem step_moves_at_most_one_cell (env : TickEnv) (s s' : List Agent)
    (htick : Tick env s s') (hgood : GoodState env s) :
    ∀ k a a', s.get? k = some a → s'.get? k = some a' →
      a'.pos = a.pos ∨ StepOK env.topology env.gridSize a.pos a'.pos := by
  cases htick with
  | moved order sA sB hnd hpass =>
      intro k a a' ha ha'
      rcases mainPass_pointwise env hpass hgood hnd k with he | ⟨b, b', hb, hb', hstep⟩
      · left
        rw [ha, ha'] at he
        simp only [Option.map_some'] at he
        exact (Option.some_inj.mp he).symm
      · right
        have hba : b = a := by
          rw [ha] at hb
          exact (Option.some_inj.mp hb).symm
        have hba' : b' = a' := by
          rw [ha'] at hb'
          exact (Option.some_inj.mp hb').symm
        rw [← hba, ← hba']
        exact hstep
  | stalled order sA s₁ s₂ s₃ sB hnd hpass hpre hesc hpost =>
      intro k a a' ha ha'
      have hg1 := mainPass_good env hpass hgood
      have hg2 := planUpdate_good env s₁ s₂ hg1 hpre
      have heq12 : (s.get? k).map (·.pos) = (s₂.get? k).map (·.pos) :=
        (mainPass_false_pointwise env hpass rfl k).trans (hpre.2.1 k).1
      rcases escal_pointwise env hesc hg2 k with he | ⟨b, b', hb, hb', hstep⟩
      · left
        have heq : (s.get? k).map (·.pos) = (s'.get? k).map (·.pos) :=
          (heq12.trans he).trans (hpost.2.1 k).1
        rw [ha, ha'] at heq
        simp only [Option.map_some'] at heq
        exact (Option.some_inj.mp heq).symm
      · right
        obtain ⟨b₀, hb₀, hp0⟩ := pos_eq_extract' heq12 ha
        have hbb : b₀ = b := by
          rw [hb] at hb₀
          exact (Option.some_inj.mp hb₀).symm
        obtain ⟨a₁, ha₁, hp1⟩ := pos_eq_extract' (hpost.2.1 k).1 hb'
        have haa : a₁ = a' := by
          rw [ha'] at ha₁
          exact (Option.some_inj.mp ha₁).symm
        have hbpos : b.pos = a.pos := by rw [← hbb, hp0]
        have hbpos' : a'.pos = b'.pos := by rw [← haa, hp1]
        rw [← hbpos, hbpos']
        exact hstep

theorem wTick : Tick wEnv wS0 wS1 := by
  refine Tick.moved [0] wS0 wS1 (by simp) ?_
  have hplan : PlanUpdate wEnv wS0 wS0 := ⟨rfl, fun k => ⟨rfl, rfl⟩, by decide⟩
  have hplan2 : PlanUpdate wEnv wS1 wS1 := ⟨rfl, fun k => ⟨rfl, rfl⟩, by decide⟩
  have hocc : moveAllowed wEnv wS0 wAgent0 (0, 1) := by
    show ∀ b ∈ wS0, b.id ≠ wAgent0.id → b.pos ≠ ((0 : ℤ), (1 : ℤ))
    intro b hb hid
    rw [wS0, List.mem_singleton] at hb
    subst hb
    exact absurd rfl hid
  have hcommit : MoveCommit wEnv 0 wS0 wS1 :=
    @MoveCommit.mk wEnv 0 wS0 wAgent0 (0, 1) rfl (by decide) rfl hocc
  exact MainPass.move 0 [] false wS0 wS0 wS1 wS1 wS1 hplan hcommit hplan2
    (MainPass.nil wS1)

theorem step_preserves_no_overlap_witness :
    GoodState wEnv wS0 ∧ ((wS0.map (·.pos)).Nodup) ∧ ((wS1.map (·.pos)).Nodup) :=
  ⟨by decide, by decide,
    step_preserves_no_overlap wEnv wS0 wS1 wTick (by decide) (by decide)⟩

theorem step_moves_at_most_one_cell_witness :
    GoodState wEnv wS0 ∧
      (wAgent1.pos = wAgent0.pos ∨ StepOK wEnv.topology wEnv.gridSize wAgent0.pos wAgent1.pos) :=
  ⟨by decide,
    step_moves_at_most_one_cell wEnv wS0 wS1 wTick (by decide) 0 wAgent0 wAgent1 rfl rfl⟩

/-! ## C3: A* returns a minimum-cost path

Groundwork: direction facts, consistency of the scaled heuristics, path
concatenation and decomposition. -/

theorem moveCost_ge (d : Pos) : 500 ≤ moveCost d := by
  unfold moveCost
  split <;> omega

theorem offset_eq_iff (cur d q : Pos) :
    ((q.1 - cur.1, q.2 - cur.2) : Pos) = d ↔ q = (cur.1 + d.1, cur.2 + d.2) := by
  obtain ⟨c1, c2⟩ := cur
  obtain ⟨d1, d2⟩ := d
  obtain ⟨q1, q2⟩ := q
  simp only [Prod.mk.injEq]
  omega

theorem stepCost_offset (cur d : Pos) :
    stepCost cur (cur.1 + d.1, cur.2 + d.2) = moveCost d := by
  obtain ⟨c1, c2⟩ := cur
  obtain ⟨d1, d2⟩ := d
  simp [stepCost]

theorem vn_dirs_abs (d : Pos) (h : d ∈ getDirections .vonNeumann) :
    d.1.natAbs + d.2.natAbs = 1 := by
  simp only [getDirections] at h
  fin_cases h <;> decide

theorem moore_dirs_abs (d : Pos) (h : d ∈ getDirections .moore) :
    d.1.natAbs ≤ 1 ∧ d.2.natAbs ≤ 1 := by
  simp only [getDirections] at h
  fin_cases h <;> decide

theorem heuristic_self (t : Topology) (a : Pos) : AStar.heuristic t a a = 0 := by
  cases t <;> simp [AStar.heuristic, manhattan, chebyshev]

/-- Consistency of the scaled heuristic along one admissible edge offset. -/
theorem heuristic_consistent (t : Topology) (u v goal : Pos)
    (h : ((v.1 - u.1, v.2 - u.2) : Pos) ∈ getDirections t) :
    AStar.heuristic t u goal ≤ stepCost u v + AStar.heuristic t v goal := by
  have hge : 500 ≤ stepCost u v := moveCost_ge _
  cases t with
  | vonNeumann =>
      have habs := vn_dirs_abs _ h
      simp only at habs
      have hman : manhattan u goal ≤ manhattan v goal + 1 := by
        unfold manhattan
        omega
      have hst : stepCost u v = 500 := by
        simp only [stepCost, moveCost]
        rw [if_neg (by omega)]
      simp only [AStar.heuristic]
      omega
  | moore =>
      obtain ⟨h1, h2⟩ := moore_dirs_abs _ h
      have hch : chebyshev u goal ≤ chebyshev v goal + 1 := by
        unfold chebyshev
        omega
      simp only [AStar.heuristic]
      omega

theorem isPath_singleton (gr : Grid) (t : Topology) (a : Pos) :
    IsPath gr t a a [a] := ⟨rfl, rfl, List.chain'_singleton a⟩

theorem isPath_snoc (gr : Grid) (t : Topology) (start w z : Pos) (Q : List Pos)
    (hQ : IsPath gr t start w Q) (hwz : AdmissibleStep gr t w z) :
    IsPath gr t start z (Q ++ [z]) := by
  obtain ⟨hh, hl, hc⟩ := hQ
  refine ⟨?_, ?_, ?_⟩
  · cases Q with
    | nil => simp at hh
    | cons q Q' => simpa using hh
  · simp [List.getLast?_concat]
  · rw [List.chain'_append]
    refine ⟨hc, List.chain'_singleton z, ?_⟩
    intro x hx y hy
    rw [hl] at hx
    simp only [Option.mem_def, Option.some_inj] at hx
    simp only [List.head?_cons, Option.mem_def, Option.some_inj] at hy
    subst hx
    subst hy
    exact hwz

theorem pathCost_concat : ∀ (Q : List Pos) (w z : Pos), Q.getLast? = some w →
    pathCost (Q ++ [z]) = pathCost Q + stepCost w z
  | [], _, _, h => by simp at h
  | [a], w, z, h => by
      simp only [List.getLast?_singleton, Option.some_inj] at h
      subst h
      simp [pathCost]
  | a :: b :: Q', w, z, h => by
      have h' : (b :: Q').getLast? = some w := by
        rw [List.getLast?_cons_cons] at h
        exact h
      have ih := pathCost_concat (b :: Q') w z h'
      show stepCost a b + pathCost ((b :: Q') ++ [z]) =
        stepCost a b + pathCost (b :: Q') + stepCost w z
      rw [ih]
      omega

theorem isPath_snoc_inv (gr : Grid) (t : Topology) (start z : Pos) (P : List Pos)
    (hP : IsPath gr t start z P) :
    (P = [start] ∧ z = start) ∨
      ∃ Q w, P = Q ++ [z] ∧ IsPath gr t start w Q ∧ AdmissibleStep gr t w z ∧
        pathCost P = pathCost Q + stepCost w z := by
  obtain ⟨hh, hl, hc⟩ := hP
  rcases List.eq_nil_or_concat P with rfl | ⟨Q, b, hQb⟩
  · simp at hh
  rw [List.concat_eq_append] at hQb
  subst hQb
  rw [List.getLast?_concat] at hl
  rw [Option.some_inj] at hl
  subst hl
  cases Q with
  | nil =>
      left
      simp only [List.nil_append, List.head?_cons, Option.some_inj] at hh
      subst hh
      exact ⟨rfl, rfl⟩
  | cons q Q' =>
      right
      obtain ⟨w, hw⟩ : ∃ w, (q :: Q').getLast? = some w :=
        ⟨(q :: Q').getLast (List.cons_ne_nil q Q'), List.getLast?_eq_getLast _ _⟩
      rw [List.chain'_append] at hc
      refine ⟨q :: Q', w, rfl, ⟨?_, hw, hc.1⟩, ?_, pathCost_concat _ w b hw⟩
      · simpa using hh
      · refine hc.2.2 w ?_ b rfl
        rw [hw]
        rfl

theorem sortHead_min {l rest : List (Pos × WithTop ℕ)} {c : Pos × WithTop ℕ}
    (h : l.insertionSort (fun a b => a.2 ≤ b.2) = c :: rest) :
    ∀ e ∈ l, c.2 ≤ e.2 := by
  intro e he
  have hs := List.sorted_insertionSort (fun a b : Pos × WithTop ℕ => a.2 ≤ b.2) l
  rw [h, List.sorted_cons] at hs
  have hperm := List.perm_insertionSort (fun a b : Pos × WithTop ℕ => a.2 ≤ b.2) l
  rw [h] at hperm
  rcases List.mem_cons.mp (hperm.mem_iff.mpr he) with rfl | hr
  · exact le_refl _
  · exact hs.1 e hr

theorem sort_mem {l : List (Pos × WithTop ℕ)} {e : Pos × WithTop ℕ}
    (h : e ∈ l.insertionSort (fun a b => a.2 ≤ b.2)) : e ∈ l :=
  (List.perm_insertionSort (fun a b : Pos × WithTop ℕ => a.2 ≤ b.2) l).mem_iff.mp h

theorem sort_nil {l : List (Pos × WithTop ℕ)}
    (h : l.insertionSort (fun a b => a.2 ≤ b.2) = []) : l = [] := by
  have hperm := List.perm_insertionSort (fun a b : Pos × WithTop ℕ => a.2 ≤ b.2) l
  rw [h] at hperm
  exact hperm.symm.eq_nil

theorem inOpen_iff (l : List (Pos × WithTop ℕ)) (nb : Pos) :
    (l.any (fun e => e.1 = nb) = true) ↔ nb ∈ l.map Prod.fst := by
  rw [List.any_eq_true, List.mem_map]
  constructor
  · rintro ⟨e, he, hd⟩
    exact ⟨e, he, of_decide_eq_true hd⟩
  · rintro ⟨e, he, hd⟩
    exact ⟨e, he, decide_eq_true hd⟩

theorem map_fst_entryUpdate (l : List (Pos × WithTop ℕ)) (nb : Pos)
    (fNew : WithTop ℕ) :
    (l.map (fun e => if e.1 = nb then (nb, fNew) else e)).map Prod.fst =
      l.map Prod.fst := by
  rw [List.map_map]
  apply List.map_congr_left
  intro e _
  by_cases h : e.1 = nb
  · simp [h]
  · simp [h]

theorem isMinDist_ne_top {gr : Grid} {t : Topology} {start p : Pos}
    {d : WithTop ℕ} (h : IsMinDist gr t start p d) : d ≠ ⊤ := by
  obtain ⟨⟨q, _, hq⟩, _⟩ := h
  rw [← hq]
  exact WithTop.coe_ne_top

/-- Any node with a finite `gScore` is reached by a concrete path whose cost
is exactly that score, via the `cameFrom` chain into the closed set. -/
theorem ainv_realize (gr : Grid) (t : Topology) (start goal : Pos) (s : AState)
    (inv : AInv gr t start goal s) (u : Pos) (hu : s.g u ≠ ⊤) :
    ∃ p, IsPath gr t start u p ∧ ((pathCost p : ℕ) : WithTop ℕ) = s.g u := by
  rcases inv.cf_g u hu with rfl | hsome
  · refine ⟨[u], isPath_singleton gr t u, ?_⟩
    rw [inv.g_start]
    simp [pathCost]
  · obtain ⟨v, hv⟩ := Option.isSome_iff_exists.mp hsome
    obtain ⟨hadm, hvc, hgu⟩ := inv.cf_sound u v hv
    obtain ⟨⟨q, hq, hqc⟩, _⟩ := inv.settled v hvc
    refine ⟨q ++ [u], isPath_snoc gr t start v u q hq hadm, ?_⟩
    rw [pathCost_concat q v u hq.2.1, hgu, ← hqc]
    push_cast
    rfl

/-- Cover lemma: once `start` is closed, every path out of the closed set is
dominated (up to the heuristic telescope) by some open node's `f` value. -/
theorem ainv_cover (gr : Grid) (t : Topology) (start goal : Pos) (s : AState)
    (inv : AInv gr t start goal s) (hsc : start ∈ s.closed) :
    ∀ (n : ℕ) (P : List Pos) (z : Pos), P.length ≤ n → z ∉ s.closed →
      IsPath gr t start z P →
      ∃ y ∈ s.openL.map Prod.fst,
        s.g y + ((AStar.heuristic t y goal : ℕ) : WithTop ℕ) ≤
          ((pathCost P : ℕ) : WithTop ℕ) +
            ((AStar.heuristic t z goal : ℕ) : WithTop ℕ) := by
  intro n
  induction n with
  | zero =>
      intro P z hlen hz hP
      rw [List.length_eq_zero.mp (Nat.le_zero.mp hlen)] at hP
      simp [IsPath] at hP
  | succ n ih =>
      intro P z hlen hz hP
      rcases isPath_snoc_inv gr t start z P hP with ⟨hPe, rfl⟩ |
        ⟨Q, w, rfl, hQ, hwz, hcost⟩
      · exact absurd hsc hz
      · by_cases hwcl : w ∈ s.closed
        · obtain ⟨hzo, hgz⟩ := inv.frontier w hwcl z hwz hz
          refine ⟨z, hzo, ?_⟩
          have hmin := (inv.settled w hwcl).2 Q hQ
          have h1 : s.g z ≤ ((pathCost Q : ℕ) : WithTop ℕ) +
              ((stepCost w z : ℕ) : WithTop ℕ) :=
            le_trans hgz (add_le_add_right hmin _)
          rw [hcost]
          push_cast
          push_cast at h1
          exact add_le_add_right h1 _
        · have hQlen : Q.length ≤ n := by
            have hl2 : (Q ++ [z]).length = Q.length + 1 := by simp
            omega
          obtain ⟨y, hy, hle⟩ := ih Q w hQlen hwcl hQ
          refine ⟨y, hy, ?_⟩
          have hcons := heuristic_consistent t w z goal hwz.1
          rw [hcost]
          calc s.g y + ((AStar.heuristic t y goal : ℕ) : WithTop ℕ) ≤
              ((pathCost Q : ℕ) : WithTop ℕ) +
                ((AStar.heuristic t w goal : ℕ) : WithTop ℕ) := hle
            _ ≤ ((pathCost Q : ℕ) : WithTop ℕ) +
                (((stepCost w z : ℕ) : WithTop ℕ) +
                  ((AStar.heuristic t z goal : ℕ) : WithTop ℕ)) := by
                refine add_le_add_left ?_ _
                rw [show ((stepCost w z : ℕ) : WithTop ℕ) +
                    ((AStar.heuristic t z goal : ℕ) : WithTop ℕ) =
                    ((stepCost w z + AStar.heuristic t z goal : ℕ) : WithTop ℕ) by
                  push_cast; rfl]
                exact_mod_cast hcons
            _ = ((pathCost Q + stepCost w z : ℕ) : WithTop ℕ) +
                ((AStar.heuristic t z goal : ℕ) : WithTop ℕ) := by
                push_cast
                rw [add_assoc]

/-- The popped head of the `f`-sorted open list has minimal true distance:
the classic Dijkstra/A* argument, using the consistent heuristic. -/
theorem pop_min (gr : Grid) (t : Topology) (start goal : Pos) (s : AState)
    (inv : AInv gr t start goal s) (hsc : start ∈ s.closed)
    (cur : Pos) (fc : WithTop ℕ) (rest : List (Pos × WithTop ℕ))
    (hsort : s.openL.insertionSort (fun a b => a.2 ≤ b.2) = (cur, fc) :: rest) :
    ∀ P, IsPath gr t start cur P →
      s.g cur ≤ ((pathCost P : ℕ) : WithTop ℕ) := by
  intro P hP
  have hcmem : (cur, fc) ∈ s.openL := by
    apply sort_mem
    rw [hsort]
    exact List.mem_cons_self _ _
  have hcuro : cur ∈ s.openL.map Prod.fst :=
    List.mem_map.mpr ⟨(cur, fc), hcmem, rfl⟩
  have hcc : cur ∉ s.closed := inv.open_closed cur hcuro
  obtain ⟨y, hy, hle⟩ := ainv_cover gr t start goal s inv hsc P.length P cur
    (le_refl _) hcc hP
  obtain ⟨e, he, hey⟩ := List.mem_map.mp hy
  have hfy := inv.open_entry_f e he
  have hfc := inv.open_entry_f (cur, fc) hcmem
  have hhead := sortHead_min hsort e he
  have hkey : s.g cur + ((AStar.heuristic t cur goal : ℕ) : WithTop ℕ) ≤
      ((pathCost P : ℕ) : WithTop ℕ) +
        ((AStar.heuristic t cur goal : ℕ) : WithTop ℕ) := by
    calc s.g cur + ((AStar.heuristic t cur goal : ℕ) : WithTop ℕ) =
        s.f cur := hfc.2.symm
      _ = fc := hfc.1.symm
      _ ≤ e.2 := hhead
      _ = s.f e.1 := hfy.1
      _ = s.g e.1 + ((AStar.heuristic t e.1 goal : ℕ) : WithTop ℕ) := hfy.2
      _ ≤ ((pathCost P : ℕ) : WithTop ℕ) +
          ((AStar.heuristic t cur goal : ℕ) : WithTop ℕ) := by
          rw [hey]
          exact hle
  exact (WithTop.add_le_add_iff_right WithTop.coe_ne_top).mp hkey

theorem encCell_lt (cols rows : ℕ) (p : Pos) (h : inBounds cols rows p) :
    encCell cols p < cols * rows := by
  obtain ⟨h1, h2, h3, h4⟩ := h
  unfold encCell
  have a1 : p.1.toNat < cols := by omega
  have a2 : p.2.toNat + 1 ≤ rows := by omega
  have hb : cols * (p.2.toNat + 1) ≤ cols * rows := Nat.mul_le_mul_left _ a2
  have hx : cols * (p.2.toNat + 1) = cols * p.2.toNat + cols := by ring
  omega

theorem encCell_inj (cols rows : ℕ) (p q : Pos) (hp : inBounds cols rows p)
    (hq : inBounds cols rows q) (h : encCell cols p = encCell cols q) : p = q := by
  obtain ⟨hp1, hp2, hp3, hp4⟩ := hp
  obtain ⟨hq1, hq2, hq3, hq4⟩ := hq
  unfold encCell at h
  have a1 : p.1.toNat < cols := by omega
  have a2 : q.1.toNat < cols := by omega
  have hcoord : p.2.toNat = q.2.toNat ∧ p.1.toNat = q.1.toNat := by
    rcases Nat.lt_trichotomy p.2.toNat q.2.toNat with hbd | hbd | hbd
    · exfalso
      have hm : cols * (p.2.toNat + 1) ≤ cols * q.2.toNat :=
        Nat.mul_le_mul_left _ hbd
      have hx : cols * (p.2.toNat + 1) = cols * p.2.toNat + cols := by ring
      omega
    · have hx : cols * p.2.toNat = cols * q.2.toNat := by rw [hbd]
      omega
    · exfalso
      have hm : cols * (q.2.toNat + 1) ≤ cols * p.2.toNat :=
        Nat.mul_le_mul_left _ hbd
      have hx : cols * (q.2.toNat + 1) = cols * q.2.toNat + cols := by ring
      omega
  obtain ⟨e2, e1⟩ := hcoord
  obtain ⟨x1, x2⟩ := p
  obtain ⟨y1, y2⟩ := q
  simp only [Prod.mk.injEq]
  simp only at hp1 hp3 hq1 hq3 e1 e2
  omega

/-- A duplicate-free list of in-bounds cells has at most `cols * rows`
elements. -/
theorem closed_card_le (cols rows : ℕ) (l : List Pos) (hnd : l.Nodup)
    (hinb : ∀ p ∈ l, inBounds cols rows p) : l.length ≤ cols * rows := by
  have hmap : (l.map (encCell cols)).Nodup :=
    hnd.map_on (fun x hx y hy hxy =>
      encCell_inj cols rows x y (hinb x hx) (hinb y hy) hxy)
  have hsub : (l.map (encCell cols)) ⊆ List.range (cols * rows) := by
    intro x hx
    obtain ⟨p, hp, rfl⟩ := List.mem_map.mp hx
    exact List.mem_range.mpr (encCell_lt cols rows p (hinb p hp))
  have hle := (hmap.subperm hsub).length_le
  rw [List.length_map, List.length_range] at hle
  exact hle

/-- Popping the sorted head `cur ≠ goal` and closing it re-establishes the
mid-expansion invariant with no directions processed yet. -/
theorem ainv_pop (gr : Grid) (t : Topology) (start goal : Pos) (s : AState)
    (inv : AInv gr t start goal s)
    (cur : Pos) (fc : WithTop ℕ) (rest : List (Pos × WithTop ℕ))
    (hsort : s.openL.insertionSort (fun a b => a.2 ≤ b.2) = (cur, fc) :: rest)
    (hcg : cur ≠ goal) :
    AMid gr t start goal cur []
      { openL := rest, closed := cur :: s.closed, cameFrom := s.cameFrom,
        g := s.g, f := s.f } := by
  have hperm : List.Perm ((cur, fc) :: rest) s.openL := by
    have hp := List.perm_insertionSort
      (fun a b : Pos × WithTop ℕ => a.2 ≤ b.2) s.openL
    rw [hsort] at hp
    exact hp
  have hcmem : (cur, fc) ∈ s.openL := hperm.subset (List.mem_cons_self _ _)
  have hcuro : cur ∈ s.openL.map Prod.fst := List.mem_map.mpr ⟨_, hcmem, rfl⟩
  have hcc : cur ∉ s.closed := inv.open_closed cur hcuro
  have hnodupC : (cur :: rest.map Prod.fst).Nodup := by
    have hx := (hperm.map Prod.fst).nodup_iff.mpr inv.open_nodup
    simpa using hx
  have hrsub : ∀ e ∈ rest, e ∈ s.openL := fun e he =>
    hperm.subset (List.mem_cons_of_mem _ he)
  have hrfst : ∀ p ∈ rest.map Prod.fst, p ∈ s.openL.map Prod.fst := by
    intro p hp
    obtain ⟨e, he, rfl⟩ := List.mem_map.mp hp
    exact List.mem_map.mpr ⟨e, hrsub e he, rfl⟩
  have hcs : cur = start ∨ start ∈ s.closed := by
    rcases inv.start_case with ⟨hcl, hopen⟩ | hsc
    · left
      rw [hopen] at hsort
      simp only [List.insertionSort, List.orderedInsert] at hsort
      rw [List.cons.injEq, Prod.mk.injEq] at hsort
      exact hsort.1.1.symm
    · right
      exact hsc
  have hstartc : start ∈ cur :: s.closed := by
    rcases hcs with rfl | hsc
    · exact List.mem_cons_self _ _
    · exact List.mem_cons_of_mem _ hsc
  have hsettledCur : IsMinDist gr t start cur (s.g cur) := by
    rcases hcs with rfl | hsc
    · constructor
      · exact ⟨[cur], isPath_singleton gr t cur, by
          rw [inv.g_start]; simp [pathCost]⟩
      · intro q hq
        rw [inv.g_start]
        exact zero_le _
    · refine ⟨ainv_realize gr t start goal s inv cur
        (inv.open_g_fin cur hcuro), ?_⟩
      exact fun q hq => pop_min gr t start goal s inv hsc cur fc rest hsort q hq
  refine ⟨(List.nodup_cons.mp hnodupC).2, ?_, List.nodup_cons.mpr
    ⟨hcc, inv.closed_nodup⟩, ?_, ?_, List.mem_cons_self _ _, hstartc,
    inv.g_start, inv.cf_start, ?_, ?_, ?_, ?_, inv.cf_g, ?_, ?_⟩
  · intro p hp
    rw [List.mem_cons]
    push_neg
    constructor
    · intro he
      exact absurd (he ▸ hp) (List.nodup_cons.mp hnodupC).1
    · exact inv.open_closed p (hrfst p hp)
  · intro p hp
    rcases List.mem_cons.mp hp with rfl | hp
    · exact inv.open_inb p hcuro
    · exact inv.closed_inb p hp
  · intro hp
    rcases List.mem_cons.mp hp with he | hp
    · exact hcg he.symm
    · exact inv.goal_not_closed hp
  · exact fun p hp => inv.open_inb p (hrfst p hp)
  · exact fun p hp => inv.open_g_fin p (hrfst p hp)
  · exact fun e he => inv.open_entry_f e (hrsub e he)
  · intro u v hv
    obtain ⟨hadm, hvc, hgu⟩ := inv.cf_sound u v hv
    exact ⟨hadm, List.mem_cons_of_mem _ hvc, hgu⟩
  · intro p hp
    rcases List.mem_cons.mp hp with rfl | hp
    · exact hsettledCur
    · exact inv.settled p hp
  · intro p hp q hq hqc hcond
    have hpc : p ≠ cur := by
      rcases hcond with h | h
      · exact h
      · exact absurd h (List.not_mem_nil _)
    have hpcl : p ∈ s.closed := by
      rcases List.mem_cons.mp hp with rfl | h
      · exact absurd rfl hpc
      · exact h
    rw [List.mem_cons] at hqc
    push_neg at hqc
    obtain ⟨hqcur, hqcl⟩ := hqc
    obtain ⟨hqo, hqb⟩ := inv.frontier p hpcl q hq hqcl
    refine ⟨?_, hqb⟩
    have hqs : q ∈ (cur :: rest.map Prod.fst) := by
      have hx := (hperm.map Prod.fst).mem_iff.mpr hqo
      simpa using hx
    rcases List.mem_cons.mp hqs with rfl | h
    · exact absurd rfl hqcur
    · exact h

/-- The skip branches of `astarRelax` extend the processed-direction list
provided the new direction's edge is already relaxed (or inapplicable). -/
theorem amid_extend (gr : Grid) (t : Topology) (start goal cur : Pos)
    (done : List Pos) (s : AState) (d : Pos)
    (mid : AMid gr t start goal cur done s)
    (hnew : ∀ q, AdmissibleStep gr t cur q → q ∉ s.closed →
      q = (cur.1 + d.1, cur.2 + d.2) →
      q ∈ s.openL.map Prod.fst ∧
        s.g q ≤ s.g cur + ((stepCost cur q : ℕ) : WithTop ℕ)) :
    AMid gr t start goal cur (done ++ [d]) s := by
  refine ⟨mid.open_nodup, mid.open_closed, mid.closed_nodup, mid.closed_inb,
    mid.goal_not_closed, mid.cur_closed, mid.start_closed, mid.g_start,
    mid.cf_start, mid.open_inb, mid.open_g_fin, mid.open_entry_f,
    mid.cf_sound, mid.cf_g, mid.settled, ?_⟩
  intro p hp q hq hqc hcond
  rcases hcond with hpc | hoff
  · exact mid.frontier p hp q hq hqc (Or.inl hpc)
  · rw [List.mem_append] at hoff
    rcases hoff with hoff | hoff
    · exact mid.frontier p hp q hq hqc (Or.inr hoff)
    · rw [List.mem_singleton] at hoff
      by_cases hpc : p = cur
      · subst hpc
        exact hnew q hq hqc ((offset_eq_iff p d q).mp hoff)
      · exact mid.frontier p hp q hq hqc (Or.inl hpc)

/-- The update branch of `astarRelax` preserves the mid-expansion invariant,
abstracted over the two shapes of the base open list. -/
theorem amid_update (gr : Grid) (t : Topology) (start goal cur : Pos)
    (done : List Pos) (s : AState) (d nb : Pos)
    (hnbeq : nb = (cur.1 + d.1, cur.2 + d.2))
    (hd : d ∈ getDirections t)
    (mid : AMid gr t start goal cur done s)
    (hb : inBounds gr.cols gr.rows nb)
    (hnbc : nb ∉ s.closed)
    (hnbw : gr.cell nb ≠ CELL_WALL)
    (base : List (Pos × WithTop ℕ))
    (hbase : base = s.openL ∧ nb ∈ s.openL.map Prod.fst ∨
      base = s.openL ++ [(nb, ⊤)] ∧ nb ∉ s.openL.map Prod.fst)
    (hdom : ∀ p ∈ s.closed, AdmissibleStep gr t p nb →
      s.g cur + ((moveCost d : ℕ) : WithTop ℕ) ≤
        s.g p + ((stepCost p nb : ℕ) : WithTop ℕ)) :
    AMid gr t start goal cur (done ++ [d])
      { openL := base.map (fun e => if e.1 = nb then
            (nb, s.g cur + ((moveCost d : ℕ) : WithTop ℕ) +
              ((AStar.heuristic t nb goal : ℕ) : WithTop ℕ)) else e),
        closed := s.closed,
        cameFrom := Function.update s.cameFrom nb (some cur),
        g := Function.update s.g nb
          (s.g cur + ((moveCost d : ℕ) : WithTop ℕ)),
        f := Function.update s.f nb
          (s.g cur + ((moveCost d : ℕ) : WithTop ℕ) +
            ((AStar.heuristic t nb goal : ℕ) : WithTop ℕ)) } := by
  have hnbcur : nb ≠ cur := fun h => hnbc (h ▸ mid.cur_closed)
  have hnbstart : nb ≠ start := fun h => hnbc (h ▸ mid.start_closed)
  have hgcur : s.g cur ≠ ⊤ := isMinDist_ne_top (mid.settled cur mid.cur_closed)
  have hoff : ((nb.1 - cur.1, nb.2 - cur.2) : Pos) = d :=
    (offset_eq_iff cur d nb).mpr hnbeq
  have hstep : stepCost cur nb = moveCost d := by
    rw [hnbeq]
    exact stepCost_offset cur d
  have hadmnb : AdmissibleStep gr t cur nb := ⟨by rw [hoff]; exact hd, hb, hnbw⟩
  have hbfst : base.map Prod.fst = s.openL.map Prod.fst ∨
      base.map Prod.fst = s.openL.map Prod.fst ++ [nb] := by
    rcases hbase with ⟨he, _⟩ | ⟨he, _⟩
    · left
      rw [he]
    · right
      rw [he]
      simp
  have hbmem : ∀ e ∈ base, e.1 ≠ nb → e ∈ s.openL := by
    intro e he h0
    rcases hbase with ⟨heq, _⟩ | ⟨heq, _⟩
    · rw [heq] at he
      exact he
    · rw [heq, List.mem_append] at he
      rcases he with he | he
      · exact he
      · rw [List.mem_singleton] at he
        exact absurd (by rw [he]) h0
  refine ⟨?_, ?_, mid.closed_nodup, mid.closed_inb, mid.goal_not_closed,
    mid.cur_closed, mid.start_closed, ?_, ?_, ?_, ?_, ?_, ?_, ?_, ?_, ?_⟩
  · rw [map_fst_entryUpdate]
    rcases hbase with ⟨he, _⟩ | ⟨he, hno⟩
    · rw [he]
      exact mid.open_nodup
    · rw [he]
      simp only [List.map_append, List.map_cons, List.map_nil]
      rw [List.nodup_append]
      refine ⟨mid.open_nodup, List.nodup_singleton _, ?_⟩
      intro a ha hb'
      rw [List.mem_singleton] at hb'
      subst hb'
      exact hno ha
  · intro p hp
    rw [map_fst_entryUpdate] at hp
    rcases hbfst with he | he
    · rw [he] at hp
      exact mid.open_closed p hp
    · rw [he, List.mem_append] at hp
      rcases hp with hp | hp
      · exact mid.open_closed p hp
      · rw [List.mem_singleton] at hp
        rw [hp]
        exact hnbc
  · show Function.update s.g nb _ start = 0
    rw [Function.update_noteq (Ne.symm hnbstart)]
    exact mid.g_start
  · show Function.update s.cameFrom nb (some cur) start = none
    rw [Function.update_noteq (Ne.symm hnbstart)]
    exact mid.cf_start
  · intro p hp
    rw [map_fst_entryUpdate] at hp
    rcases hbfst with he | he
    · rw [he] at hp
      exact mid.open_inb p hp
    · rw [he, List.mem_append] at hp
      rcases hp with hp | hp
      · exact mid.open_inb p hp
      · rw [List.mem_singleton] at hp
        rw [hp]
        exact hb
  · intro p hp
    dsimp only
    by_cases hpnb : p = nb
    · rw [hpnb, Function.update_same]
      exact WithTop.add_ne_top.mpr ⟨hgcur, WithTop.coe_ne_top⟩
    · rw [Function.update_noteq hpnb]
      rw [map_fst_entryUpdate] at hp
      rcases hbfst with he | he
      · rw [he] at hp
        exact mid.open_g_fin p hp
      · rw [he, List.mem_append] at hp
        rcases hp with hp | hp
        · exact mid.open_g_fin p hp
        · rw [List.mem_singleton] at hp
          exact absurd hp hpnb
  · intro e he
    dsimp only at he ⊢
    obtain ⟨e₀, he₀, rfl⟩ := List.mem_map.mp he
    by_cases h0 : e₀.1 = nb
    · rw [if_pos h0]
      constructor
      · rw [Function.update_same]
      · rw [Function.update_same, Function.update_same]
    · rw [if_neg h0]
      have he₁ := hbmem e₀ he₀ h0
      obtain ⟨hf1, hf2⟩ := mid.open_entry_f e₀ he₁
      rw [Function.update_noteq h0, Function.update_noteq h0]
      exact ⟨hf1, hf2⟩
  · intro u v huv
    dsimp only at huv ⊢
    by_cases hu : u = nb
    · subst hu
      rw [Function.update_same, Option.some_inj] at huv
      subst huv
      refine ⟨hadmnb, mid.cur_closed, ?_⟩
      rw [Function.update_same, Function.update_noteq (Ne.symm hnbcur), hstep]
    · rw [Function.update_noteq hu] at huv
      obtain ⟨hadm, hvc, heq⟩ := mid.cf_sound u v huv
      have hvnb : v ≠ nb := fun h => hnbc (h ▸ hvc)
      rw [Function.update_noteq hu, Function.update_noteq hvnb]
      exact ⟨hadm, hvc, heq⟩
  · intro u hu
    dsimp only at hu ⊢
    by_cases hu' : u = nb
    · right
      rw [hu', Function.update_same]
      rfl
    · rw [Function.update_noteq hu'] at hu
      rcases mid.cf_g u hu with h | h
      · exact Or.inl h
      · right
        rw [Function.update_noteq hu']
        exact h
  · intro p hp
    dsimp only
    have hpnb : p ≠ nb := fun h => hnbc (h ▸ hp)
    rw [Function.update_noteq hpnb]
    exact mid.settled p hp
  · intro p hp q hq hqc hcond
    dsimp only
    have hpnb : p ≠ nb := fun h => hnbc (h ▸ hp)
    by_cases hqnb : q = nb
    · subst hqnb
      constructor
      · rw [map_fst_entryUpdate]
        rcases hbase with ⟨he, hin⟩ | ⟨he, _⟩
        · rw [he]
          exact hin
        · rw [he]
          simp
      · rw [Function.update_same, Function.update_noteq hpnb]
        exact hdom p hp hq
    · have hcond' : p ≠ cur ∨ ((q.1 - p.1, q.2 - p.2) : Pos) ∈ done := by
        rcases hcond with hpc | hoffm
        · exact Or.inl hpc
        · rw [List.mem_append] at hoffm
          rcases hoffm with hoffm | hoffm
          · exact Or.inr hoffm
          · rw [List.mem_singleton] at hoffm
            left
            intro hpc
            subst hpc
            exact hqnb (by rw [(offset_eq_iff p d q).mp hoffm, ← hnbeq])
      obtain ⟨hqo, hqb⟩ := mid.frontier p hp q hq hqc hcond'
      constructor
      · rw [map_fst_entryUpdate]
        rcases hbfst with he | he
        · rw [he]
          exact hqo
        · rw [he, List.mem_append]
          exact Or.inl hqo
      · rw [Function.update_noteq hqnb, Function.update_noteq hpnb]
        exact hqb

/-- One direction of `astarRelax` preserves the mid-expansion invariant and
adds the direction to the processed list. -/
theorem amid_relax (gr : Grid) (t : Topology) (start goal cur : Pos)
    (done : List Pos) (s : AState) (d : Pos) (hd : d ∈ getDirections t)
    (mid : AMid gr t start goal cur done s) :
    AMid gr t start goal cur (done ++ [d])
      (astarRelax gr t gr.cols gr.rows goal cur s d) := by
  simp only [astarRelax]
  split
  · rename_i hnb
    refine amid_extend gr t start goal cur done s d mid ?_
    intro q hq hqc hqe
    exact absurd (hqe ▸ hq.2.1) hnb
  rename_i hnb
  rw [not_not] at hnb
  split
  · rename_i hcw
    refine amid_extend gr t start goal cur done s d mid ?_
    intro q hq hqc hqe
    subst hqe
    rcases hcw with hcm | hwall
    · exact absurd hcm hqc
    · exact absurd hwall hq.2.2
  rename_i hcw
  push_neg at hcw
  obtain ⟨hnbc, hnbw⟩ := hcw
  split
  · rename_i hskip
    refine amid_extend gr t start goal cur done s d mid ?_
    intro q hq hqc hqe
    subst hqe
    refine ⟨(inOpen_iff s.openL _).mp hskip.1, ?_⟩
    rw [stepCost_offset cur d]
    exact hskip.2
  rename_i hskip
  split
  · rename_i hio
    refine amid_update gr t start goal cur done s d _ rfl hd mid hnb hnbc hnbw
      _ (Or.inl ⟨rfl, (inOpen_iff s.openL _).mp hio⟩) ?_
    intro p hp hq
    by_cases hpc : p = cur
    · subst hpc
      rw [stepCost_offset p d]
    · have hlt : s.g cur + ((moveCost d : ℕ) : WithTop ℕ) <
          s.g (cur.1 + d.1, cur.2 + d.2) := by
        rcases not_and_or.mp hskip with h | h
        · exact absurd hio h
        · exact lt_of_not_le h
      obtain ⟨_, hb2⟩ := mid.frontier p hp _ hq hnbc (Or.inl hpc)
      exact le_of_lt (lt_of_lt_of_le hlt hb2)
  · rename_i hio
    refine amid_update gr t start goal cur done s d _ rfl hd mid hnb hnbc hnbw
      _ (Or.inr ⟨rfl, fun h => hio ((inOpen_iff s.openL _).mpr h)⟩) ?_
    intro p hp hq
    by_cases hpc : p = cur
    · subst hpc
      rw [stepCost_offset p d]
    · obtain ⟨hmem, _⟩ := mid.frontier p hp _ hq hnbc (Or.inl hpc)
      exact absurd ((inOpen_iff s.openL _).mpr hmem) hio

/-- Folding the relaxation over a suffix of the direction list. -/
theorem amid_fold (gr : Grid) (t : Topology) (start goal cur : Pos) :
    ∀ (ds done : List Pos) (s : AState), (∀ d ∈ ds, d ∈ getDirections t) →
      AMid gr t start goal cur done s →
      AMid gr t start goal cur (done ++ ds)
        (ds.foldl (astarRelax gr t gr.cols gr.rows goal cur) s)
  | [], done, s, _, mid => by
      rw [List.append_nil]
      exact mid
  | d :: ds, done, s, hds, mid => by
      have h1 := amid_relax gr t start goal cur done s d
        (hds d (List.mem_cons_self _ _)) mid
      have h2 := amid_fold gr t start goal cur ds (done ++ [d]) _
        (fun d' hd' => hds d' (List.mem_cons_of_mem _ hd')) h1
      rw [List.append_assoc, List.singleton_append] at h2
      exact h2

/-- After the whole direction list is processed the plain invariant holds
again. -/
theorem amid_to_ainv (gr : Grid) (t : Topology) (start goal cur : Pos)
    (s : AState) (mid : AMid gr t start goal cur (getDirections t) s) :
    AInv gr t start goal s := by
  refine ⟨mid.open_nodup, mid.open_closed, mid.closed_nodup, mid.closed_inb,
    mid.goal_not_closed, Or.inr mid.start_closed, mid.g_start, mid.cf_start,
    mid.open_inb, mid.open_g_fin, mid.open_entry_f, mid.cf_sound, mid.cf_g,
    mid.settled, ?_⟩
  intro p hp q hq hqc
  exact mid.frontier p hp q hq hqc (Or.inr hq.1)

theorem wtop_lt_add (a : WithTop ℕ) (c : ℕ) (ha : a ≠ ⊤) (hc : 0 < c) :
    a < a + ((c : ℕ) : WithTop ℕ) := by
  obtain ⟨m, rfl⟩ := WithTop.ne_top_iff_exists.mp ha
  calc ((m : ℕ) : WithTop ℕ) < ((m + c : ℕ) : WithTop ℕ) :=
      WithTop.coe_lt_coe.mpr (Nat.lt_add_of_pos_right hc)
    _ = ((m : ℕ) : WithTop ℕ) + ((c : ℕ) : WithTop ℕ) := WithTop.coe_add _ _

theorem relax_closed (gr : Grid) (t : Topology) (cols rows : ℕ)
    (endP cur : Pos) (s : AState) (d : Pos) :
    (astarRelax gr t cols rows endP cur s d).closed = s.closed := by
  simp only [astarRelax]
  split
  · rfl
  split
  · rfl
  split
  · rfl
  split
  · rfl
  · rfl

theorem expand_closed (gr : Grid) (t : Topology) (cols rows : ℕ)
    (endP cur : Pos) :
    ∀ (ds : List Pos) (s : AState),
      (ds.foldl (astarRelax gr t cols rows endP cur) s).closed = s.closed
  | [], _ => rfl
  | d :: ds, s => by
      rw [List.foldl_cons, expand_closed gr t cols rows endP cur ds _,
        relax_closed]

/-- `reconstructPath` follows the `cameFrom` chain back to `start` and yields
a path realizing the `gScore`, provided the fuel exceeds the number of closed
nodes with smaller score. -/
theorem recon_ok (gr : Grid) (t : Topology) (start goal : Pos) (s : AState)
    (inv : AInv gr t start goal s) :
    ∀ (fuel : ℕ) (u : Pos), s.g u ≠ ⊤ →
      (s.closed.filter (fun p => decide (s.g p < s.g u))).length < fuel →
      IsPath gr t start u (reconstructPath s.cameFrom fuel u) ∧
        ((pathCost (reconstructPath s.cameFrom fuel u) : ℕ) : WithTop ℕ) =
          s.g u := by
  intro fuel
  induction fuel with
  | zero =>
      intro u _ hm
      exact absurd hm (Nat.not_lt_zero _)
  | succ n ih =>
      intro u hu hm
      cases hcf : s.cameFrom u with
      | none =>
          have hus : u = start := by
            rcases inv.cf_g u hu with h | h
            · exact h
            · rw [hcf] at h
              simp at h
          subst hus
          simp only [reconstructPath, hcf]
          refine ⟨isPath_singleton gr t u, ?_⟩
          rw [inv.g_start]
          simp [pathCost]
      | some v =>
          obtain ⟨hadm, hvc, hgu⟩ := inv.cf_sound u v hcf
          have hgv : s.g v ≠ ⊤ := by
            intro h
            rw [h, top_add] at hgu
            exact hu hgu
          have hlt : s.g v < s.g u := by
            rw [hgu]
            have hpos : (0 : ℕ) < stepCost v u := by
              have := moveCost_ge (u.1 - v.1, u.2 - v.2)
              unfold stepCost
              omega
            exact wtop_lt_add _ _ hgv hpos
          have hmv : (s.closed.filter
              (fun p => decide (s.g p < s.g v))).length < n := by
            have hsub : (v :: s.closed.filter
                (fun p => decide (s.g p < s.g v))) ⊆
                s.closed.filter (fun p => decide (s.g p < s.g u)) := by
              intro x hx
              rcases List.mem_cons.mp hx with rfl | hx
              · rw [List.mem_filter]
                exact ⟨hvc, decide_eq_true hlt⟩
              · rw [List.mem_filter] at hx ⊢
                refine ⟨hx.1, decide_eq_true ?_⟩
                exact lt_trans (of_decide_eq_true hx.2) hlt
            have hnd : (v :: s.closed.filter
                (fun p => decide (s.g p < s.g v))).Nodup := by
              rw [List.nodup_cons]
              refine ⟨?_, inv.closed_nodup.filter _⟩
              intro hvin
              rw [List.mem_filter] at hvin
              exact absurd (of_decide_eq_true hvin.2) (lt_irrefl _)
            have hle := (hnd.subperm hsub).length_le
            rw [List.length_cons] at hle
            omega
          obtain ⟨ihp, ihc⟩ := ih v hgv hmv
          simp only [reconstructPath, hcf]
          refine ⟨isPath_snoc gr t start v u _ ihp hadm, ?_⟩
          rw [pathCost_concat _ v u ihp.2.1, hgu, ← ihc]
          push_cast
          rfl

/-- The main loop returns an optimal path whenever one exists, given the
invariant and enough fuel. -/
theorem astarLoop_optimal (gr : Grid) (t : Topology) (start goal : Pos)
    (reconFuel : ℕ) (hrf : gr.cols * gr.rows < reconFuel) :
    ∀ (fuel : ℕ) (s : AState), AInv gr t start goal s →
      (∃ p, IsPath gr t start goal p) →
      gr.cols * gr.rows + 1 ≤ s.closed.length + fuel →
      IsPath gr t start goal
          (astarLoop gr t gr.cols gr.rows goal reconFuel fuel s) ∧
        ∀ q, IsPath gr t start goal q →
          pathCost (astarLoop gr t gr.cols gr.rows goal reconFuel fuel s) ≤
            pathCost q := by
  intro fuel
  induction fuel with
  | zero =>
      intro s inv hex hbound
      exfalso
      have hcl := closed_card_le gr.cols gr.rows s.closed inv.closed_nodup
        inv.closed_inb
      omega
  | succ n ih =>
      intro s inv hex hbound
      rcases hsort : s.openL.insertionSort (fun a b => a.2 ≤ b.2) with
        _ | ⟨⟨cur, fc⟩, rest⟩
      · exfalso
        have hempty : s.openL = [] := sort_nil hsort
        obtain ⟨P, hP⟩ := hex
        rcases inv.start_case with ⟨hcl, hopen⟩ | hsc
        · rw [hempty] at hopen
          simp at hopen
        · obtain ⟨y, hy, _⟩ := ainv_cover gr t start goal s inv hsc P.length P
            goal (le_refl _) inv.goal_not_closed hP
          rw [hempty] at hy
          simp at hy
      · by_cases hcg : cur = goal
        · subst hcg
          simp only [astarLoop, hsort]
          rw [if_pos trivial]
          have hcmem : (cur, fc) ∈ s.openL := by
            apply sort_mem
            rw [hsort]
            exact List.mem_cons_self _ _
          have hcuro : cur ∈ s.openL.map Prod.fst :=
            List.mem_map.mpr ⟨_, hcmem, rfl⟩
          have hgfin : s.g cur ≠ ⊤ := inv.open_g_fin cur hcuro
          have hgmin : ∀ P, IsPath gr t start cur P →
              s.g cur ≤ ((pathCost P : ℕ) : WithTop ℕ) := by
            rcases inv.start_case with ⟨hcl, hopen⟩ | hsc
            · have hcs : cur = start := by
                rw [hopen] at hsort
                simp only [List.insertionSort, List.orderedInsert] at hsort
                rw [List.cons.injEq, Prod.mk.injEq] at hsort
                exact hsort.1.1.symm
              intro P hP
              rw [hcs, inv.g_start]
              exact zero_le _
            · exact pop_min gr t start cur s inv hsc cur fc rest hsort
          have hmfuel : (s.closed.filter
              (fun p => decide (s.g p < s.g cur))).length < reconFuel := by
            have h1 := List.length_filter_le
              (fun p => decide (s.g p < s.g cur)) s.closed
            have h2 := closed_card_le gr.cols gr.rows s.closed
              inv.closed_nodup inv.closed_inb
            omega
          obtain ⟨hpath, hcost⟩ := recon_ok gr t start cur s inv reconFuel
            cur hgfin hmfuel
          refine ⟨hpath, ?_⟩
          intro q hq
          have h2 := hgmin q hq
          rw [← hcost] at h2
          exact_mod_cast h2
        · simp only [astarLoop, hsort]
          rw [if_neg hcg]
          have hmid0 := ainv_pop gr t start goal s inv cur fc rest hsort hcg
          have hfold := amid_fold gr t start goal cur (getDirections t) []
            { openL := rest, closed := cur :: s.closed,
              cameFrom := s.cameFrom, g := s.g, f := s.f }
            (fun d hd => hd) hmid0
          rw [List.nil_append] at hfold
          have hinv' := amid_to_ainv gr t start goal cur _ hfold
          have hclosed : (astarExpand gr t gr.cols gr.rows goal cur
              { openL := rest, closed := cur :: s.closed,
                cameFrom := s.cameFrom, g := s.g,
                f := s.f }).closed = cur :: s.closed :=
            expand_closed gr t gr.cols gr.rows goal cur (getDirections t) _
          refine ih _ hinv' hex ?_
          rw [hclosed, List.length_cons]
          omega

/-- The initial state of `AStar.findPath` satisfies the invariant. -/
theorem ainv_init (gr : Grid) (t : Topology) (start goal : Pos)
    (hsb : inBounds gr.cols gr.rows start) :
    AInv gr t start goal
      { openL := [(start, if start = start then
            ((AStar.heuristic t start goal : ℕ) : WithTop ℕ) else ⊤)],
        closed := [],
        cameFrom := fun _ => none,
        g := fun p => if p = start then 0 else ⊤,
        f := fun p => if p = start then
          ((AStar.heuristic t start goal : ℕ) : WithTop ℕ) else ⊤ } := by
  refine ⟨by simp, by simp, List.nodup_nil, ?_, List.not_mem_nil _,
    Or.inl ⟨rfl, rfl⟩, by simp, rfl, ?_, ?_, ?_, ?_, ?_, ?_, ?_⟩
  · intro p hp
    simp at hp
  · intro p hp
    simp at hp
    rw [hp]
    exact hsb
  · intro p hp
    simp at hp
    rw [hp]
    simp
  · intro e he
    simp at he
    rw [he]
    constructor
    · simp
    · simp
  · intro u v h
    simp at h
  · intro u hu
    by_cases h : u = start
    · exact Or.inl h
    · dsimp only at hu
      rw [if_neg h] at hu
      exact absurd rfl hu
  · intro p hp
    simp at hp
  · intro p hp
    simp at hp

/-- **C3**: for every grid, in-bounds non-wall start, non-wall goal and
either topology, the final `AStar.findPath` — Manhattan heuristic under Von
Neumann, Chebyshev under Moore, orthogonal step cost `1` and diagonal step
cost `1.414` (embedded uniformly scaled by `500` as `500`/`707`) — returns a
path from start to goal of minimum total cost whenever any path exists. -/
theorem astar_returns_min_cost_path (gr : Grid) (t : Topology)
    (start goal : Pos)
    (hsb : inBounds gr.cols gr.rows start)
    (hsw : gr.cell start ≠ CELL_WALL) (hgw : gr.cell goal ≠ CELL_WALL)
    (hex : ∃ p, IsPath gr t start goal p) :
    IsPath gr t start goal (AStar.findPath gr t start goal) ∧
      ∀ q, IsPath gr t start goal q →
        pathCost (AStar.findPath gr t start goal) ≤ pathCost q := by
  have hcomm : gr.rows * gr.cols = gr.cols * gr.rows := Nat.mul_comm _ _
  have hrf : gr.cols * gr.rows < gr.rows * gr.cols + 1 := by omega
  have hinit := ainv_init gr t start goal hsb
  have hres := astarLoop_optimal gr t start goal (gr.rows * gr.cols + 1) hrf
    (gr.rows * gr.cols + 1)
    { openL := [(start, if start = start then
          ((AStar.heuristic t start goal : ℕ) : WithTop ℕ) else ⊤)],
      closed := [],
      cameFrom := fun _ => none,
      g := fun p => if p = start then 0 else ⊤,
      f := fun p => if p = start then
        ((AStar.heuristic t start goal : ℕ) : WithTop ℕ) else ⊤ }
    hinit hex (by simp; omega)
  exact hres

theorem astar_returns_min_cost_path_witness :
    inBounds (Grid.cols [[0, 0], [0, 0]]) (Grid.rows [[0, 0], [0, 0]])
        ((0, 0) : Pos) ∧
      IsPath [[0, 0], [0, 0]] .vonNeumann (0, 0) (1, 1)
        [(0, 0), (0, 1), (1, 1)] ∧
      IsPath [[0, 0], [0, 0]] .vonNeumann (0, 0) (1, 1)
        (AStar.findPath [[0, 0], [0, 0]] .vonNeumann (0, 0) (1, 1)) ∧
      pathCost (AStar.findPath [[0, 0], [0, 0]] .vonNeumann (0, 0) (1, 1)) ≤
        pathCost [(0, 0), (0, 1), (1, 1)] := by
  have h := astar_returns_min_cost_path [[0, 0], [0, 0]] .vonNeumann
    (0, 0) (1, 1) (by decide) (by decide) (by decide)
    ⟨[(0, 0), (0, 1), (1, 1)], by decide⟩
  exact ⟨by decide, by decide, h.1, h.2 [(0, 0), (0, 1), (1, 1)] (by decide)⟩

end PMSim
